import Mathlib

set_option maxHeartbeats 1000000

/- Shallow embedding of the configuration-store routines of src/src/web_config.c
   (the Luckfox camera web-configuration server): trim_string, read_config_value,
   write_config_value, write_config_batch, stop_rkipc and the configuration-update
   request handler handle_config_update.

   Modeling choices:
   * A document is a list of lines (List String); each element stands for one line
     of the file without its terminating newline, exactly as fgets hands lines to
     the loops and fputs/fprintf write them back.
   * C strings are modeled as unbounded Lean strings: the fixed buffer sizes of the
     source (the 128-byte section and key buffers, the 512-byte line buffer, the
     64/64/256-byte ConfigEntry fields) and the silent truncation strncpy and
     sscanf's %127 width would perform past them are outside the model, as is the
     splitting of over-511-byte physical lines by fgets.
   * File-system effects (open, flock, fopen of the temporary file, rename, unlink)
     are modeled by an explicit world record saying which of the calls the source
     checks succeed; the content transformation itself is the pure function below. -/

-- ==========================================================================
-- trim_string: drops leading ' '/'\t' and trailing ' '/'\t'/'\r'/'\n'
-- ==========================================================================

def isLeadWSChar (c : Char) : Bool := decide (c = ' ' ∨ c = '\t')

def isTrailWSChar (c : Char) : Bool := decide (c = ' ' ∨ c = '\t' ∨ c = '\r' ∨ c = '\n')

def dropLeadWS (l : List Char) : List Char := l.dropWhile isLeadWSChar

def dropTrailWS (l : List Char) : List Char := (l.reverse.dropWhile isTrailWSChar).reverse

def trimChars (l : List Char) : List Char := dropTrailWS (dropLeadWS l)

def trim_string (s : String) : String := String.mk (trimChars s.data)

-- ==========================================================================
-- Line classification and parsing primitives shared by the three routines
-- ==========================================================================

/-- The line[0] == '[' test of the source (false for the empty line). -/
def isHeaderLine (line : String) : Bool := decide (line.data.head? = some '[')

/-- The strstr(line, "=") test. -/
def hasEqSign (line : String) : Bool := decide ('=' ∈ line.data)

def notRBrack (c : Char) : Bool := decide (c ≠ ']')

def notEqSign (c : Char) : Bool := decide (c ≠ '=')

/-- sscanf(line, "[%127[^]]]", current_section) followed by trim_string:
    the characters after the leading '[' up to the first ']' are the new current
    section once trimmed; when that character set is empty the conversion fails
    and current_section keeps its previous value. -/
def parseHeaderName (cur : String) (line : String) : String :=
  let rest := (line.data.drop 1).takeWhile notRBrack
  if rest = [] then cur else trim_string (String.mk rest)

/-- The key part of a key-value line: the characters before the first '=',
    trimmed (the source splits at strchr(line, '=') and trims file_key). -/
def lineKey (line : String) : String :=
  trim_string (String.mk (line.data.takeWhile notEqSign))

/-- The value part of a key-value line as read_config_value parses it:
    the characters after the first '=', trimmed. -/
def lineValue (line : String) : String :=
  trim_string (String.mk ((line.data.dropWhile notEqSign).drop 1))

/-- line[strcspn(line, "\r\n")] = 0: read_config_value truncates the line at the
    first carriage return or newline before parsing it. -/
def stripCRLF (line : String) : String :=
  String.mk (line.data.takeWhile (fun c => decide (c ≠ '\r' ∧ c ≠ '\n')))

-- ==========================================================================
-- read_config_value
-- ==========================================================================

/-- The scanning loop of read_config_value: tracks current_section and
    in_section, recomputing in_section at each header line, and returns the
    trimmed value of the first line in the target section whose trimmed key
    equals the requested key. -/
def readLoop (sect key : String) (cur : String) (inSec : Bool) : List String → Option String
  | [] => none
  | l :: ls =>
    let line := stripCRLF l
    if isHeaderLine line then
      let cur' := parseHeaderName cur line
      readLoop sect key cur' (decide (cur' = sect)) ls
    else if inSec && hasEqSign line then
      if lineKey line = key then some (lineValue line)
      else readLoop sect key cur inSec ls
    else readLoop sect key cur inSec ls

/-- read_config_value on an in-memory document: some value on success, none when
    the scan reaches end of file without a match. -/
def read_config_value (doc : List String) (sect key : String) : Option String :=
  readLoop sect key "" false doc

-- ==========================================================================
-- write_config_batch (content transformation)
-- ==========================================================================

/-- One entry of the batch, with the internal updated flag. -/
structure ConfigEntry where
  sec : String
  key : String
  value : String
  updated : Bool
deriving DecidableEq, Repr

/-- The canonical form fprintf(out, "%s = %s\n", key, value) writes. -/
def canonLine (key value : String) : String := key ++ " = " ++ value

/-- The source's inner loop looking for the first entry whose (section, key)
    pair matches the current section and the parsed key; the updated flag is not
    consulted by the search. -/
def findMatch (cur fileKey : String) : List ConfigEntry → Option ConfigEntry
  | [] => none
  | e :: rest =>
    if e.sec = cur ∧ e.key = fileKey then some e else findMatch cur fileKey rest

/-- Marking entries[match_idx].updated = 1 for the first matching entry. -/
def markFirstMatch (cur fileKey : String) : List ConfigEntry → List ConfigEntry
  | [] => []
  | e :: rest =>
    if e.sec = cur ∧ e.key = fileKey then { e with updated := true } :: rest
    else e :: markFirstMatch cur fileKey rest

/-- The append-missing-keys loop run when a section closes (and the identical
    look-ahead loop of the missing-section handler): every not-yet-updated entry
    whose section equals the given one is emitted in canonical form and marked. -/
def appendFor (cur : String) : List ConfigEntry → List String × List ConfigEntry
  | [] => ([], [])
  | e :: rest =>
    let p := appendFor cur rest
    if e.updated = false ∧ e.sec = cur then
      (canonLine e.key e.value :: p.1, { e with updated := true } :: p.2)
    else (p.1, e :: p.2)

/-- State of the write_config_batch scanning loop. -/
structure BatchState where
  cur : String
  inSection : Bool
  entries : List ConfigEntry
deriving DecidableEq, Repr

/-- Processing of one line by write_config_batch: a header line first flushes the
    closing section's missing keys and then switches section (in_section is set
    unconditionally); a key line in the current section matching some entry is
    replaced by the canonical form; every other line is copied verbatim. -/
def batchLine (st : BatchState) (line : String) : List String × BatchState :=
  if isHeaderLine line then
    let p := if st.inSection then appendFor st.cur st.entries else ([], st.entries)
    (p.1 ++ [line], ⟨parseHeaderName st.cur line, true, p.2⟩)
  else if st.inSection && hasEqSign line then
    match findMatch st.cur (lineKey line) st.entries with
    | some e => ([canonLine e.key e.value], ⟨st.cur, st.inSection, markFirstMatch st.cur (lineKey line) st.entries⟩)
    | none => ([line], st)
  else ([line], st)

def runBatchLines (st : BatchState) : List String → List String × BatchState
  | [] => ([], st)
  | l :: ls =>
    let p := batchLine st l
    let q := runBatchLines p.2 ls
    (p.1 ++ q.1, q.2)

theorem appendFor_length_snd (cur : String) (es : List ConfigEntry) :
    (appendFor cur es).2.length = es.length := by
  induction es with
  | nil => simp [appendFor]
  | cons e rest ih =>
    simp only [appendFor]
    split <;> simp [ih]

/-- The handle-completely-missing-sections loop, written with the loop-counter
    fuel the C for-loop has (one iteration per array index): each
    still-unsatisfied entry opens a fresh section (blank line, header, key line)
    and the look-ahead loop groups the later entries of the same section under
    that header. -/
def missingSectionsFuel : Nat → List ConfigEntry → List String
  | 0, _ => []
  | _ + 1, [] => []
  | n + 1, e :: rest =>
    if e.updated then missingSectionsFuel n rest
    else
      "" :: ("[" ++ e.sec ++ "]") :: canonLine e.key e.value ::
        ((appendFor e.sec rest).1 ++ missingSectionsFuel n (appendFor e.sec rest).2)

/-- The missing-sections loop of write_config_batch; since the look-ahead only
    marks entries and never changes the array's length, fuel equal to the number
    of entries runs the loop to completion exactly as the source does. -/
def missingSections (es : List ConfigEntry) : List String :=
  missingSectionsFuel es.length es

theorem missingSections_nil : missingSections [] = [] := rfl

theorem missingSections_cons (e : ConfigEntry) (rest : List ConfigEntry) :
    missingSections (e :: rest) =
      if e.updated then missingSections rest
      else
        "" :: ("[" ++ e.sec ++ "]") :: canonLine e.key e.value ::
          ((appendFor e.sec rest).1 ++ missingSections (appendFor e.sec rest).2) := by
  unfold missingSections
  rw [show (e :: rest).length = rest.length + 1 from rfl]
  rw [missingSectionsFuel]
  rw [appendFor_length_snd]

/-- The entries array write_config_batch starts from: the updated flags are
    cleared before the scan. -/
def initEntries (updates : List (String × String × String)) : List ConfigEntry :=
  updates.map (fun u => ⟨u.1, u.2.1, u.2.2, false⟩)

/-- The end-of-file flush: append the missing keys of the still-open section. -/
def eofFlush (st : BatchState) : List String × List ConfigEntry :=
  if st.inSection then appendFor st.cur st.entries else ([], st.entries)

/-- The full line transformation of write_config_batch: scan all lines, flush the
    last open section's missing keys at end of file, then synthesize sections for
    the entries never satisfied. Updates are (section, key, value) triples. -/
def write_config_batch (doc : List String) (updates : List (String × String × String)) : List String :=
  (runBatchLines ⟨"", false, initEntries updates⟩ doc).1 ++
    (eofFlush (runBatchLines ⟨"", false, initEntries updates⟩ doc).2).1 ++
    missingSections (eofFlush (runBatchLines ⟨"", false, initEntries updates⟩ doc).2).2

-- ==========================================================================
-- write_config_value (single-key variant, content transformation)
-- ==========================================================================

/-- State of the write_config_value scanning loop. -/
structure ValueState where
  cur : String
  inSection : Bool
  keyUpdated : Bool
  sectionFound : Bool
deriving DecidableEq, Repr

/-- Processing of one line by write_config_value. Unlike the batch variant, the
    key_updated flag guards the replacement, so only the first matching key line
    is rewritten; in_section is recomputed at each header as (current == target). -/
def valueLine (sect key newValue : String) (st : ValueState) (line : String) :
    List String × ValueState :=
  if isHeaderLine line then
    let app := if st.inSection && !st.keyUpdated then [canonLine key newValue] else []
    let keyUpd := st.keyUpdated || st.inSection
    let cur' := parseHeaderName st.cur line
    let inS := decide (cur' = sect)
    (app ++ [line], ⟨cur', inS, keyUpd, st.sectionFound || inS⟩)
  else if st.inSection && !st.keyUpdated && hasEqSign line then
    if lineKey line = key then
      ([canonLine key newValue], ⟨st.cur, st.inSection, true, st.sectionFound⟩)
    else ([line], st)
  else ([line], st)

def runValueLines (sect key newValue : String) (st : ValueState) :
    List String → List String × ValueState
  | [] => ([], st)
  | l :: ls =>
    let p := valueLine sect key newValue st l
    let q := runValueLines sect key newValue p.2 ls
    (p.1 ++ q.1, q.2)

/-- The end-of-file handling of write_config_value: append the key if the scan
    ended inside the target section without updating it, or synthesize the whole
    section if it was never found. -/
def valueFinish (sect key newValue : String) (st : ValueState) : List String :=
  if st.inSection && !st.keyUpdated then [canonLine key newValue]
  else if !st.sectionFound then ["", "[" ++ sect ++ "]", canonLine key newValue]
  else []

/-- The full line transformation of write_config_value, including the two
    end-of-file cases (key missing from an open target section; section missing
    from the file altogether). -/
def write_config_value (doc : List String) (sect key newValue : String) : List String :=
  (runValueLines sect key newValue ⟨"", false, false, false⟩ doc).1 ++
    valueFinish sect key newValue (runValueLines sect key newValue ⟨"", false, false, false⟩ doc).2

-- ==========================================================================
-- File-system level model of write_config_batch
-- ==========================================================================

inductive BatchResult
  | success
  | failure
deriving DecidableEq, Repr

/-- Which of the file-system calls checked by write_config_batch succeed. -/
structure IoWorld where
  openLockOk : Bool
  flockOk : Bool
  openReadOk : Bool
  createTempOk : Bool
  renameOk : Bool
deriving DecidableEq, Repr

/-- Contents of the configuration file and of the temporary sibling file after
    the call (none: the file does not exist). -/
structure FsState where
  config : Option (List String)
  temp : Option (List String)
deriving DecidableEq, Repr

structure BatchOutcome where
  result : BatchResult
  fs : FsState
  renamed : Bool
deriving DecidableEq, Repr

/-- write_config_batch at the file-system level, following the source's
    failure-path order: open for locking, flock, fopen for reading, fopen of the
    temporary file, then the rewrite and rename; a failed rename unlinks the
    temporary file and leaves the original untouched. -/
def write_config_batch_fs (w : IoWorld) (orig : List String)
    (updates : List (String × String × String)) : BatchOutcome :=
  if !w.openLockOk then ⟨.failure, ⟨some orig, none⟩, false⟩
  else if !w.flockOk then ⟨.failure, ⟨some orig, none⟩, false⟩
  else if !w.openReadOk then ⟨.failure, ⟨some orig, none⟩, false⟩
  else if !w.createTempOk then ⟨.failure, ⟨some orig, none⟩, false⟩
  else if w.renameOk then ⟨.success, ⟨some (write_config_batch orig updates), none⟩, true⟩
  else ⟨.failure, ⟨some orig, none⟩, false⟩

-- ==========================================================================
-- The lock-acquisition call
-- ==========================================================================

inductive LockMode
  | blocking
  | nonblocking
deriving DecidableEq, Repr

inductive LockOutcome
  | acquired
  | blockedUntilReleased
  | wouldBlockFailure
  | timeoutFailure
deriving DecidableEq, Repr

/-- Semantics of flock(fd, op) under contention: with LOCK_EX the call sleeps
    until the holder releases the lock; only with LOCK_EX|LOCK_NB does it fail
    immediately. No variant fails by timeout. -/
def flockBehavior (mode : LockMode) (heldByOther : Bool) : LockOutcome :=
  match mode, heldByOther with
  | _, false => .acquired
  | .blocking, true => .blockedUntilReleased
  | .nonblocking, true => .wouldBlockFailure

/-- The mode write_config_batch (and write_config_value) passes to flock:
    plain LOCK_EX, with no LOCK_NB and no timeout mechanism around the call. -/
def write_config_batch_lockMode : LockMode := .blocking

-- ==========================================================================
-- stop_rkipc and handle_config_update
-- ==========================================================================

inductive StopOutcome
  | exited (poll : Nat)
  | forceKilled
deriving DecidableEq, Repr

/-- The polling loop of stop_rkipc: up to the given number of 100 ms polls of
    pgrep; running tells whether the process is still present at a given poll.
    When the budget runs out the source escalates to killall -9 and returns. -/
def stopPoll (running : Nat → Bool) : Nat → Nat → StopOutcome
  | 0, _ => .forceKilled
  | Nat.succ fuel, r => if running r then stopPoll running fuel (r + 1) else .exited r

/-- stop_rkipc: 50 polls, then forced kill; always returns. -/
def stop_rkipc (running : Nat → Bool) : StopOutcome := stopPoll running 50 0

/-- What handle_config_update does and reports for a non-empty batch. -/
structure UpdateFlow where
  stopResult : StopOutcome
  writeOutcome : BatchOutcome
  restartLaunched : Bool
  reportedSuccess : Bool
deriving Repr

set_option linter.unusedVariables false in
/-- The update branch of handle_config_update: stop_rkipc runs first and always
    returns, write_config_batch runs unconditionally after it, the restart is
    launched with its result ignored (restartOk is accepted but never read, as
    the source never checks the system() return value of the relaunch), and the
    JSON success flag reported to the client is exactly the batch write's
    result. -/
def handle_config_update (running : Nat → Bool) (w : IoWorld) (doc : List String)
    (updates : List (String × String × String)) (restartOk : Bool) : UpdateFlow :=
  let so := stop_rkipc running
  let wr := write_config_batch_fs w doc updates
  { stopResult := so
    writeOutcome := wr
    restartLaunched := true
    reportedSuccess := decide (wr.result = BatchResult.success) }

-- ==========================================================================
-- Well-formedness predicates used by the hypotheses of several claims
-- ==========================================================================

/-- A string containing neither carriage return nor newline, so that it fits on
    one physical line and read_config_value's strcspn truncation is a no-op. -/
def CleanStr (s : String) : Prop := '\r' ∉ s.data ∧ '\n' ∉ s.data

/-- Every line of the document is free of carriage returns and newlines. -/
def CleanDoc (doc : List String) : Prop := ∀ l ∈ doc, CleanStr l

/-- A section name the source's header syntax can represent and re-parse:
    nonempty, already trimmed, and free of ']'. -/
def WFSection (s : String) : Prop := s ≠ "" ∧ trim_string s = s ∧ ']' ∉ s.data

/-- A key the canonical "key = value" form re-parses to itself: already trimmed,
    free of '=', and not starting with '[' (which would turn the written line
    into a section header). -/
def WFKey (k : String) : Prop :=
  trim_string k = k ∧ '=' ∉ k.data ∧ k.data.head? ≠ some '['

/-- A value that read_config_value's trimming returns unchanged. -/
def WFValue (v : String) : Prop := trim_string v = v

instance (s : String) : Decidable (CleanStr s) := by unfold CleanStr; infer_instance

instance (d : List String) : Decidable (CleanDoc d) := by unfold CleanDoc; infer_instance

instance (s : String) : Decidable (WFSection s) := by unfold WFSection; infer_instance

instance (k : String) : Decidable (WFKey k) := by unfold WFKey; infer_instance

instance (v : String) : Decidable (WFValue v) := by unfold WFValue; infer_instance

-- ==========================================================================
-- Elementary list and string lemmas
-- ==========================================================================

theorem takeWhile_append_of_all {α : Type} {p : α → Bool} {xs : List α}
    (h : ∀ a ∈ xs, p a = true) (ys : List α) :
    (xs ++ ys).takeWhile p = xs ++ ys.takeWhile p := by
  induction xs with
  | nil => simp
  | cons a xs ih =>
    have ha : p a = true := h a (by simp)
    simp [List.takeWhile_cons, ha, ih (fun b hb => h b (by simp [hb]))]

theorem dropWhile_append_of_all {α : Type} {p : α → Bool} {xs : List α}
    (h : ∀ a ∈ xs, p a = true) (ys : List α) :
    (xs ++ ys).dropWhile p = ys.dropWhile p := by
  induction xs with
  | nil => simp
  | cons a xs ih =>
    have ha : p a = true := h a (by simp)
    simp [List.dropWhile_cons, ha, ih (fun b hb => h b (by simp [hb]))]

theorem takeWhile_of_all {α : Type} {p : α → Bool} {xs : List α}
    (h : ∀ a ∈ xs, p a = true) : xs.takeWhile p = xs := by
  have := takeWhile_append_of_all h ([] : List α)
  simpa using this

theorem str_data_append (a b : String) : (a ++ b).data = a.data ++ b.data := rfl

theorem str_mk_data (s : String) : String.mk s.data = s := rfl

theorem trimChars_of_trimmed {s : String} (h : trim_string s = s) :
    trimChars s.data = s.data := congrArg String.data h

theorem trimChars_space_cons (l : List Char) : trimChars (' ' :: l) = trimChars l := by
  simp [trimChars, dropLeadWS, List.dropWhile_cons, isLeadWSChar]

theorem dropTrailWS_append_space (l : List Char) : dropTrailWS (l ++ [' ']) = dropTrailWS l := by
  simp [dropTrailWS, List.dropWhile_cons, isTrailWSChar]

theorem trimChars_append_space (l : List Char) : trimChars (l ++ [' ']) = trimChars l := by
  unfold trimChars dropLeadWS
  induction l with
  | nil => simp [dropTrailWS, isLeadWSChar, isTrailWSChar, List.dropWhile_cons]
  | cons a l ih =>
    by_cases ha : isLeadWSChar a = true
    · simpa [List.dropWhile_cons, ha] using ih
    · have ha' : isLeadWSChar a = false := by simp [ha]
      simp only [List.cons_append, List.dropWhile_cons, ha']
      simp [dropTrailWS, List.reverse_append, List.dropWhile_cons, isTrailWSChar]

theorem canonLine_data (K V : String) :
    (canonLine K V).data = K.data ++ (' ' :: '=' :: ' ' :: V.data) := by
  simp [canonLine, str_data_append]

theorem lineKey_canon {K : String} (V : String)
    (h1 : trim_string K = K) (h2 : '=' ∉ K.data) :
    lineKey (canonLine K V) = K := by
  unfold lineKey
  rw [canonLine_data]
  have hall : ∀ c ∈ K.data, notEqSign c = true := by
    intro c hc
    simp [notEqSign]
    rintro rfl
    exact h2 hc
  rw [takeWhile_append_of_all hall]
  have : (' ' :: '=' :: ' ' :: V.data).takeWhile notEqSign = [' '] := by
    simp [List.takeWhile_cons, notEqSign]
  rw [this]
  show String.mk (trimChars (K.data ++ [' '])) = K
  rw [trimChars_append_space, trimChars_of_trimmed h1, str_mk_data]

theorem lineValue_canon {K V : String}
    (h1 : trim_string V = V) (h2 : '=' ∉ K.data) :
    lineValue (canonLine K V) = V := by
  unfold lineValue
  rw [canonLine_data]
  have hall : ∀ c ∈ K.data, notEqSign c = true := by
    intro c hc
    simp [notEqSign]
    rintro rfl
    exact h2 hc
  rw [dropWhile_append_of_all hall]
  have : (' ' :: '=' :: ' ' :: V.data).dropWhile notEqSign = '=' :: ' ' :: V.data := by
    simp [List.dropWhile_cons, notEqSign]
  rw [this]
  show String.mk (trimChars (' ' :: V.data)) = V
  rw [trimChars_space_cons, trimChars_of_trimmed h1, str_mk_data]

theorem isHeaderLine_canon {K : String} (V : String)
    (h : K.data.head? ≠ some '[') : isHeaderLine (canonLine K V) = false := by
  unfold isHeaderLine
  rw [canonLine_data]
  cases hK : K.data with
  | nil => simp
  | cons c rest =>
    rw [hK] at h
    simp at h ⊢
    exact h

theorem hasEqSign_canon (K V : String) : hasEqSign (canonLine K V) = true := by
  unfold hasEqSign
  rw [canonLine_data]
  simp

theorem stripCRLF_self {l : String} (h : CleanStr l) : stripCRLF l = l := by
  unfold stripCRLF
  rw [takeWhile_of_all, str_mk_data]
  intro c hc
  simp only [decide_eq_true_eq]
  constructor
  · rintro rfl; exact h.1 hc
  · rintro rfl; exact h.2 hc

theorem cleanStr_iff (s : String) : CleanStr s ↔ ∀ c ∈ s.data, c ≠ '\r' ∧ c ≠ '\n' := by
  unfold CleanStr
  constructor
  · rintro ⟨h1, h2⟩ c hc
    exact ⟨fun e => h1 (e ▸ hc), fun e => h2 (e ▸ hc)⟩
  · intro h
    exact ⟨fun hc => (h _ hc).1 rfl, fun hc => (h _ hc).2 rfl⟩

theorem cleanStr_canon {K V : String} (hK : CleanStr K) (hV : CleanStr V) :
    CleanStr (canonLine K V) := by
  rw [cleanStr_iff] at *
  intro c hc
  rw [canonLine_data] at hc
  rcases List.mem_append.mp hc with h | h
  · exact hK c h
  · simp only [List.mem_cons] at h
    rcases h with rfl | rfl | rfl | h
    · exact ⟨by decide, by decide⟩
    · exact ⟨by decide, by decide⟩
    · exact ⟨by decide, by decide⟩
    · exact hV c h

theorem headerStr_data (S : String) :
    ("[" ++ S ++ "]").data = '[' :: (S.data ++ [']']) := by
  simp [str_data_append]

theorem isHeaderLine_bracket (S : String) : isHeaderLine ("[" ++ S ++ "]") = true := by
  unfold isHeaderLine
  rw [headerStr_data]
  simp

theorem parseHeaderName_bracket {S : String} (cur : String) (h : WFSection S) :
    parseHeaderName cur ("[" ++ S ++ "]") = S := by
  obtain ⟨h1, h2, h3⟩ := h
  unfold parseHeaderName
  rw [headerStr_data]
  simp only [List.drop_succ_cons, List.drop_zero]
  have hall : ∀ c ∈ S.data, notRBrack c = true := by
    intro c hc
    simp [notRBrack]
    rintro rfl
    exact h3 hc
  rw [takeWhile_append_of_all hall]
  have : ([']'] : List Char).takeWhile notRBrack = [] := by
    simp [List.takeWhile_cons, notRBrack]
  rw [this, List.append_nil]
  have hne : S.data ≠ [] := by
    intro hd
    exact h1 (by cases S; simp_all)
  rw [if_neg hne]
  show trim_string S = S
  exact h2

theorem cleanStr_bracket {S : String} (h : CleanStr S) : CleanStr ("[" ++ S ++ "]") := by
  rw [cleanStr_iff] at *
  intro c hc
  rw [headerStr_data] at hc
  simp only [List.mem_cons, List.mem_append] at hc
  rcases hc with rfl | hc | rfl | hfalse
  · exact ⟨by decide, by decide⟩
  · exact h c hc
  · exact ⟨by decide, by decide⟩
  · exact absurd hfalse (List.not_mem_nil c)

-- ==========================================================================
-- Scanning-loop infrastructure lemmas
-- ==========================================================================

theorem runBatchLines_nil (st : BatchState) : runBatchLines st [] = ([], st) := rfl

theorem runBatchLines_cons (st : BatchState) (l : String) (ls : List String) :
    runBatchLines st (l :: ls) =
      ((batchLine st l).1 ++ (runBatchLines (batchLine st l).2 ls).1,
        (runBatchLines (batchLine st l).2 ls).2) := rfl

theorem runBatchLines_append (st : BatchState) (a b : List String) :
    runBatchLines st (a ++ b) =
      ((runBatchLines st a).1 ++ (runBatchLines (runBatchLines st a).2 b).1,
        (runBatchLines (runBatchLines st a).2 b).2) := by
  induction a generalizing st with
  | nil => simp [runBatchLines]
  | cons l a ih => simp [runBatchLines, ih, List.append_assoc]

theorem appendFor_skip {cur : String} {es : List ConfigEntry}
    (h : ∀ e ∈ es, e.sec ≠ cur) : appendFor cur es = ([], es) := by
  induction es with
  | nil => rfl
  | cons e rest ih =>
    have he : ¬(e.updated = false ∧ e.sec = cur) := fun hc => h e (by simp) hc.2
    simp [appendFor, he, ih (fun e' he' => h e' (by simp [he']))]

theorem findMatch_skip {cur : String} (k : String) {es : List ConfigEntry}
    (h : ∀ e ∈ es, e.sec ≠ cur) : findMatch cur k es = none := by
  induction es with
  | nil => rfl
  | cons e rest ih =>
    have he : ¬(e.sec = cur ∧ e.key = k) := fun hc => h e (by simp) hc.1
    simp [findMatch, he, ih (fun e' he' => h e' (by simp [he']))]

theorem appendFor_updated {cur : String} {es : List ConfigEntry}
    (h : ∀ e ∈ es, e.updated = true) : appendFor cur es = ([], es) := by
  induction es with
  | nil => rfl
  | cons e rest ih =>
    have he : ¬(e.updated = false ∧ e.sec = cur) := by
      rintro ⟨hu, _⟩
      rw [h e (by simp)] at hu
      exact Bool.noConfusion hu
    simp [appendFor, he, ih (fun e' he' => h e' (by simp [he']))]

theorem missingSections_updated {es : List ConfigEntry}
    (h : ∀ e ∈ es, e.updated = true) : missingSections es = [] := by
  induction es with
  | nil => rfl
  | cons e rest ih =>
    rw [missingSections_cons, if_pos (h e (by simp))]
    exact ih (fun e' he' => h e' (by simp [he']))

-- ==========================================================================
-- C1
-- ==========================================================================

/-- C1: write_config_batch returns Success only once the rename of the
    temporary file over the original has completed; on any intermediate failure
    (original cannot be opened for locking or reading, lock not acquired,
    temporary file cannot be created, rename fails) it returns Failure, the
    original file's content is exactly the pre-call content, and the temporary
    file is absent afterward. -/
theorem write_config_batch_atomic_failure :
    ∀ (w : IoWorld) (orig : List String) (updates : List (String × String × String)),
      ((write_config_batch_fs w orig updates).result = BatchResult.success →
        (write_config_batch_fs w orig updates).renamed = true ∧
        (write_config_batch_fs w orig updates).fs.config =
          some (write_config_batch orig updates) ∧
        (write_config_batch_fs w orig updates).fs.temp = none) ∧
      ((write_config_batch_fs w orig updates).result = BatchResult.failure →
        (write_config_batch_fs w orig updates).renamed = false ∧
        (write_config_batch_fs w orig updates).fs.config = some orig ∧
        (write_config_batch_fs w orig updates).fs.temp = none) := by
  intro w orig updates
  rcases w with ⟨a, b, c, d, e⟩
  cases a <;> cases b <;> cases c <;> cases d <;> cases e <;>
    simp [write_config_batch_fs]

-- ==========================================================================
-- C7
-- ==========================================================================

/-- C7 (amended): the lock acquisition of write_config_batch is a plain
    blocking flock(fd, LOCK_EX) with no LOCK_NB and no timeout: under
    contention the call sleeps until the holder releases the lock instead of
    failing, and no execution of the lock step yields a timeout failure. -/
theorem write_config_batch_lock_blocks :
    ∀ held : Bool,
      flockBehavior write_config_batch_lockMode held =
        (if held then LockOutcome.blockedUntilReleased else LockOutcome.acquired) ∧
      ∀ (m : LockMode) (b : Bool), flockBehavior m b ≠ LockOutcome.timeoutFailure := by
  intro held
  constructor
  · cases held <;> rfl
  · intro m b
    cases m <;> cases b <;> simp [flockBehavior]

/-- C7 counterexample: with the lock already held by another caller, the lock
    step of write_config_batch blocks until the lock is released; it is neither
    a timeout failure nor an immediate would-block failure, contradicting the
    claim that the call fails within a bounded time. -/
theorem write_config_batch_lock_contended_cex :
    flockBehavior write_config_batch_lockMode true = LockOutcome.blockedUntilReleased ∧
    LockOutcome.blockedUntilReleased ≠ LockOutcome.timeoutFailure ∧
    LockOutcome.blockedUntilReleased ≠ LockOutcome.wouldBlockFailure := by
  refine ⟨rfl, ?_, ?_⟩ <;> decide

-- ==========================================================================
-- C9
-- ==========================================================================

theorem stopPoll_spec (running : Nat → Bool) :
    ∀ (fuel start : Nat),
      (stopPoll running fuel start = StopOutcome.forceKilled ∧
        ∀ i, start ≤ i → i < start + fuel → running i = true) ∨
      (∃ i, start ≤ i ∧ i < start + fuel ∧ running i = false ∧
        stopPoll running fuel start = StopOutcome.exited i) := by
  intro fuel
  induction fuel with
  | zero =>
    intro start
    exact Or.inl ⟨rfl, fun i h1 h2 => absurd h2 (by omega)⟩
  | succ n ih =>
    intro start
    by_cases h : running start = true
    · rcases ih (start + 1) with ⟨h1, h2⟩ | ⟨i, hi1, hi2, hi3, hi4⟩
      · refine Or.inl ⟨by simp [stopPoll, h, h1], ?_⟩
        intro i hle hlt
        by_cases hi : i = start
        · subst hi; exact h
        · exact h2 i (by omega) (by omega)
      · exact Or.inr ⟨i, by omega, by omega, hi3, by simp [stopPoll, h, hi4]⟩
    · have h' : running start = false := by simpa using h
      exact Or.inr ⟨start, Nat.le_refl _, by omega, h', by simp [stopPoll, h']⟩

/-- C9: the JSON success flag handle_config_update reports is exactly the
    result of the write_config_batch step, independent of how the service-stop
    polling went and of the restart's outcome; and stop_rkipc always completes,
    either observing the service absent at some poll below 50 or force-killing
    after 50 failed polls, so the write step is always reached. -/
theorem handle_config_update_reports_write_only :
    ∀ (running : Nat → Bool) (w : IoWorld) (doc : List String)
      (updates : List (String × String × String)) (restartOk : Bool),
      (handle_config_update running w doc updates restartOk).reportedSuccess =
        decide ((write_config_batch_fs w doc updates).result = BatchResult.success) ∧
      (handle_config_update running w doc updates restartOk).writeOutcome =
        write_config_batch_fs w doc updates ∧
      (∀ (running2 : Nat → Bool) (restartOk2 : Bool),
        (handle_config_update running2 w doc updates restartOk2).reportedSuccess =
          (handle_config_update running w doc updates restartOk).reportedSuccess) ∧
      ((stop_rkipc running = StopOutcome.forceKilled ∧ ∀ i, i < 50 → running i = true) ∨
        (∃ i, i < 50 ∧ running i = false ∧ stop_rkipc running = StopOutcome.exited i)) := by
  intro running w doc updates restartOk
  refine ⟨rfl, rfl, fun r2 b2 => rfl, ?_⟩
  rcases stopPoll_spec running 50 0 with ⟨h1, h2⟩ | ⟨i, hi1, hi2, hi3, hi4⟩
  · exact Or.inl ⟨h1, fun i hlt => h2 i (Nat.zero_le i) (by omega)⟩
  · exact Or.inr ⟨i, by omega, hi3, hi4⟩

-- ==========================================================================
-- C4
-- ==========================================================================

/-- Whether write_config_batch rewrites this line (a key line of the current
    section matched by some entry) instead of copying it verbatim. -/
def batchLineReplaces (st : BatchState) (line : String) : Bool :=
  if isHeaderLine line then false
  else if st.inSection && hasEqSign line then
    (findMatch st.cur (lineKey line) st.entries).isSome
  else false

/-- The original lines that are not key lines targeted by some batch entry,
    computed along the same scan write_config_batch performs. -/
def untargetedLines (st : BatchState) : List String → List String
  | [] => []
  | l :: ls =>
    if batchLineReplaces st l then untargetedLines (batchLine st l).2 ls
    else l :: untargetedLines (batchLine st l).2 ls

theorem batchLine_not_replace_emits {st : BatchState} {l : String}
    (h : batchLineReplaces st l = false) :
    ∃ pre, (batchLine st l).1 = pre ++ [l] := by
  by_cases hH : isHeaderLine l = true
  · exact ⟨(if st.inSection then appendFor st.cur st.entries else ([], st.entries)).1,
      by simp [batchLine, hH]⟩
  · by_cases hEq : (st.inSection && hasEqSign l) = true
    · have hm : findMatch st.cur (lineKey l) st.entries = none := by
        unfold batchLineReplaces at h
        rw [if_neg hH, if_pos hEq] at h
        exact Option.not_isSome_iff_eq_none.mp (by simp [h])
      exact ⟨[], by simp [batchLine, hH, hEq, hm]⟩
    · exact ⟨[], by simp [batchLine, hH, hEq]⟩

theorem untargeted_sublist_run :
    ∀ (ls : List String) (st : BatchState),
      (untargetedLines st ls).Sublist (runBatchLines st ls).1 := by
  intro ls
  induction ls with
  | nil =>
    intro st
    simp [untargetedLines, runBatchLines]
  | cons l ls ih =>
    intro st
    rw [runBatchLines_cons]
    by_cases hrep : batchLineReplaces st l = true
    · have hx : untargetedLines st (l :: ls) = untargetedLines (batchLine st l).2 ls := by
        rw [untargetedLines, if_pos hrep]
      rw [hx]
      exact (ih (batchLine st l).2).trans (List.sublist_append_right _ _)
    · have hrep' : batchLineReplaces st l = false := by simpa using hrep
      have hu : untargetedLines st (l :: ls) = l :: untargetedLines (batchLine st l).2 ls := by
        rw [untargetedLines, if_neg (by simp [hrep'])]
      obtain ⟨pre, hpre⟩ := batchLine_not_replace_emits hrep'
      rw [hu, hpre, List.append_assoc, List.singleton_append]
      exact (((ih (batchLine st l).2).cons₂ l).trans (List.sublist_append_right _ _))

/-- C4: for every document and batch, the original lines that are not key lines
    targeted by some batch entry (opaque lines, unrelated keys, section headers)
    occur in write_config_batch's output verbatim and in their original relative
    order: they form a sublist of the output. -/
theorem write_config_batch_preserves_untargeted :
    ∀ (doc : List String) (updates : List (String × String × String)),
      (untargetedLines ⟨"", false, initEntries updates⟩ doc).Sublist
        (write_config_batch doc updates) := by
  intro doc updates
  unfold write_config_batch
  rw [List.append_assoc]
  exact (untargeted_sublist_run doc _).trans (List.sublist_append_left _ _)

-- ==========================================================================
-- C5
-- ==========================================================================

/-- The current_section values taken while scanning the document from the given
    starting section, one per header line (with the source's retention of the
    previous value when the header fails to parse). -/
def sectionTraceFrom (cur : String) : List String → List String
  | [] => []
  | l :: ls =>
    if isHeaderLine l then
      parseHeaderName cur l :: sectionTraceFrom (parseHeaderName cur l) ls
    else sectionTraceFrom cur ls

/-- The section names the write_config_batch scan ever makes current on this
    document; a section "occurs as a header" exactly when it is in this list. -/
def sectionsSeen (doc : List String) : List String := sectionTraceFrom "" doc

theorem untouched_run :
    ∀ (ls : List String) (cur : String) (inSec : Bool) (es : List ConfigEntry),
      (∀ e ∈ es, e.sec ∉ sectionTraceFrom cur ls) →
      (inSec = true → ∀ e ∈ es, e.sec ≠ cur) →
      ∃ cur2 inSec2,
        runBatchLines ⟨cur, inSec, es⟩ ls = (ls, ⟨cur2, inSec2, es⟩) ∧
          (inSec2 = true → ∀ e ∈ es, e.sec ≠ cur2) := by
  intro ls
  induction ls with
  | nil =>
    intro cur inSec es _ h2
    exact ⟨cur, inSec, rfl, h2⟩
  | cons l ls ih =>
    intro cur inSec es h1 h2
    by_cases hH : isHeaderLine l = true
    · have htr : ∀ e ∈ es, e.sec ≠ parseHeaderName cur l ∧
          e.sec ∉ sectionTraceFrom (parseHeaderName cur l) ls := by
        intro e he
        have := h1 e he
        rw [sectionTraceFrom, if_pos hH] at this
        simp only [List.mem_cons, not_or] at this
        exact this
      have hbl : batchLine ⟨cur, inSec, es⟩ l = ([l], ⟨parseHeaderName cur l, true, es⟩) := by
        unfold batchLine
        rw [if_pos hH]
        cases hin : inSec with
        | false => simp
        | true => simp [appendFor_skip (h2 hin)]
      obtain ⟨cur2, inSec2, hrun, hfin⟩ :=
        ih (parseHeaderName cur l) true es (fun e he => (htr e he).2)
          (fun _ e he => (htr e he).1)
      refine ⟨cur2, inSec2, ?_, hfin⟩
      rw [runBatchLines_cons, hbl]
      simp [hrun]
    · have hH' : isHeaderLine l = false := by simpa using hH
      have h1' : ∀ e ∈ es, e.sec ∉ sectionTraceFrom cur ls := by
        intro e he
        have := h1 e he
        rwa [sectionTraceFrom, if_neg (by simp [hH'])] at this
      have hbl : batchLine ⟨cur, inSec, es⟩ l = ([l], ⟨cur, inSec, es⟩) := by
        unfold batchLine
        rw [if_neg (by simp [hH'])]
        cases hin : inSec with
        | false => simp
        | true =>
          by_cases hEq : hasEqSign l = true
          · simp [hEq, findMatch_skip (lineKey l) (h2 hin)]
          · simp [hEq]
      obtain ⟨cur2, inSec2, hrun, hfin⟩ := ih cur inSec es h1' h2
      refine ⟨cur2, inSec2, ?_, hfin⟩
      rw [runBatchLines_cons, hbl]
      simp [hrun]

/-- C5: updating a section S that never occurs as a header of D appends, after
    all of D's unchanged content, one blank line, a new [S] header and the
    canonical key line; a second entry of the batch sharing the missing section
    is grouped as a further key line under that single header; and on the
    concrete document of Scenario B the single-key update and the batch update
    both produce exactly the expected bytes. -/
theorem write_config_batch_missing_section :
    ∀ (doc : List String) (S K V K2 V2 : String),
      S ∉ sectionsSeen doc →
      write_config_batch doc [(S, K, V)] = doc ++ ["", "[" ++ S ++ "]", canonLine K V] ∧
      write_config_batch doc [(S, K, V), (S, K2, V2)] =
        doc ++ ["", "[" ++ S ++ "]", canonLine K V, canonLine K2 V2] ∧
      write_config_value ["[a]", "x = 1"] "b" "y" "2" =
        ["[a]", "x = 1", "", "[b]", "y = 2"] ∧
      write_config_batch ["[a]", "x = 1"] [("b", "y", "2")] =
        ["[a]", "x = 1", "", "[b]", "y = 2"] := by
  intro doc S K V K2 V2 hS
  refine ⟨?_, ?_, by decide, by decide⟩
  · obtain ⟨cur2, inSec2, hrun, hfin⟩ :=
      untouched_run doc "" false [⟨S, K, V, false⟩]
        (by intro e he; simp at he; subst he; exact hS)
        (by intro h; exact absurd h (by simp))
    unfold write_config_batch
    rw [show initEntries [(S, K, V)] = [⟨S, K, V, false⟩] from rfl, hrun]
    have hq : eofFlush ⟨cur2, inSec2, [⟨S, K, V, false⟩]⟩ = ([], [⟨S, K, V, false⟩]) := by
      unfold eofFlush
      cases hin : inSec2 with
      | false => simp
      | true => simp [appendFor_skip (hfin hin)]
    rw [hq]
    simp [missingSections_cons, missingSections_nil, appendFor]
  · obtain ⟨cur2, inSec2, hrun, hfin⟩ :=
      untouched_run doc "" false [⟨S, K, V, false⟩, ⟨S, K2, V2, false⟩]
        (by intro e he; simp at he; rcases he with he | he <;> subst he <;> exact hS)
        (by intro h; exact absurd h (by simp))
    unfold write_config_batch
    rw [show initEntries [(S, K, V), (S, K2, V2)] =
        [⟨S, K, V, false⟩, ⟨S, K2, V2, false⟩] from rfl, hrun]
    have hq : eofFlush ⟨cur2, inSec2, [⟨S, K, V, false⟩, ⟨S, K2, V2, false⟩]⟩ =
        ([], [⟨S, K, V, false⟩, ⟨S, K2, V2, false⟩]) := by
      unfold eofFlush
      cases hin : inSec2 with
      | false => simp
      | true => simp [appendFor_skip (hfin hin)]
    rw [hq]
    simp [missingSections_cons, missingSections_nil, appendFor]

/-- C5 witness: the general part of the theorem instantiated at the concrete
    document of Scenario B, with the hypothesis discharged by computation. -/
theorem write_config_batch_missing_section_witness :
    write_config_batch ["[a]", "x = 1"] [("b", "y", "2")] =
        ["[a]", "x = 1"] ++ ["", "[" ++ "b" ++ "]", canonLine "y" "2"] ∧
      write_config_batch ["[a]", "x = 1"] [("b", "y", "2"), ("b", "z", "3")] =
        ["[a]", "x = 1"] ++ ["", "[" ++ "b" ++ "]", canonLine "y" "2", canonLine "z" "3"] ∧
      write_config_value ["[a]", "x = 1"] "b" "y" "2" =
        ["[a]", "x = 1", "", "[b]", "y = 2"] ∧
      write_config_batch ["[a]", "x = 1"] [("b", "y", "2")] =
        ["[a]", "x = 1", "", "[b]", "y = 2"] :=
  write_config_batch_missing_section ["[a]", "x = 1"] "b" "y" "2" "z" "3" (by decide)

-- ==========================================================================
-- Key-line and header counting (for C8)
-- ==========================================================================

/-- The number of key lines for key K inside section S, scanning with the same
    section-tracking the write loop uses (in_section set at every header): a key
    line counts when the current section is S, the line is not a header, it
    contains '=', and its trimmed key part equals K. -/
def countKeyLines (S K : String) (cur : String) (inSec : Bool) : List String → Nat
  | [] => 0
  | l :: ls =>
    if isHeaderLine l then countKeyLines S K (parseHeaderName cur l) true ls
    else if inSec ∧ cur = S ∧ hasEqSign l ∧ lineKey l = K then
      1 + countKeyLines S K cur inSec ls
    else countKeyLines S K cur inSec ls

def keyLinesInSection (doc : List String) (S K : String) : Nat :=
  countKeyLines S K "" false doc

/-- The number of header lines that make S the current section (counting the
    retention of the previous name on a malformed header). -/
def countHeadersFor (S cur : String) : List String → Nat
  | [] => 0
  | l :: ls =>
    if isHeaderLine l then
      (if parseHeaderName cur l = S then 1 else 0) +
        countHeadersFor S (parseHeaderName cur l) ls
    else countHeadersFor S cur ls

def sectionHeaderCount (doc : List String) (S : String) : Nat :=
  countHeadersFor S "" doc

-- ==========================================================================
-- Counterexamples for C2, C3, C6, C8
-- ==========================================================================

/-- C2 counterexample: with the value " 2" (one leading space),
    write_config_batch succeeds and writes "x =  2", but read_config_value on
    the result returns the trimmed value "2", not " 2"; the claimed round trip
    fails for values the trimming does not fix. -/
theorem roundtrip_cex :
    write_config_batch ["[a]", "x = 1"] [("a", "x", " 2")] = ["[a]", "x =  2"] ∧
    read_config_value (write_config_batch ["[a]", "x = 1"] [("a", "x", " 2")]) "a" "x" =
      some "2" ∧
    (some "2" : Option String) ≠ some " 2" := by
  refine ⟨by decide, by decide, by decide⟩

/-- C3 counterexample: with the key " x" (one leading space), the first
    application synthesizes the line " x = 1", whose re-parsed key is the
    trimmed "x"; the second application does not recognize it, copies it, and
    appends the key again, so applying the update twice is not the identity on
    the first application's output. -/
theorem idempotence_cex :
    write_config_batch [] [("a", " x", "1")] = ["", "[a]", " x = 1"] ∧
    write_config_batch (write_config_batch [] [("a", " x", "1")]) [("a", " x", "1")] =
      ["", "[a]", " x = 1", " x = 1"] ∧
    (["", "[a]", " x = 1", " x = 1"] : List String) ≠ ["", "[a]", " x = 1"] := by
  refine ⟨by decide, by decide, by decide⟩

/-- C6 counterexample: two batch entries target (a, x); the existing key line is
    rewritten with the FIRST entry's value 1 (the inner search breaks at the
    first match), the still-unsatisfied second entry is appended as a duplicate
    line, and a subsequent read returns 1, not the last entry's 2. -/
theorem last_entry_wins_cex :
    write_config_batch ["[a]", "x = 0"] [("a", "x", "1"), ("a", "x", "2")] =
      ["[a]", "x = 1", "x = 2"] ∧
    read_config_value (write_config_batch ["[a]", "x = 0"] [("a", "x", "1"), ("a", "x", "2")])
      "a" "x" = some "1" ∧
    (some "1" : Option String) ≠ some "2" := by
  refine ⟨by decide, by decide, by decide⟩

/-- C8 counterexample: a document whose section a already contains the key x
    twice; write_config_batch rewrites both occurrences, so the output still
    contains two lines whose key equals x within section a. -/
theorem no_duplication_cex :
    keyLinesInSection ["[a]", "x = 1", "x = 2"] "a" "x" = 2 ∧
    write_config_batch ["[a]", "x = 1", "x = 2"] [("a", "x", "9")] =
      ["[a]", "x = 9", "x = 9"] ∧
    keyLinesInSection (write_config_batch ["[a]", "x = 1", "x = 2"] [("a", "x", "9")])
      "a" "x" = 2 := by
  refine ⟨by decide, by decide, by decide⟩

-- ==========================================================================
-- Characterization of the batch scan on a single-entry batch
-- ==========================================================================

theorem batchLine_singleton_cases (S K V cur : String) (inSec u : Bool) (l : String) :
    batchLine ⟨cur, inSec, [⟨S, K, V, u⟩]⟩ l =
      if isHeaderLine l = true then
        ((if inSec = true ∧ u = false ∧ S = cur then [canonLine K V] else []) ++ [l],
          ⟨parseHeaderName cur l, true,
            [⟨S, K, V, if inSec = true ∧ u = false ∧ S = cur then true else u⟩]⟩)
      else if inSec = true ∧ hasEqSign l = true ∧ S = cur ∧ K = lineKey l then
        ([canonLine K V], ⟨cur, inSec, [⟨S, K, V, true⟩]⟩)
      else ([l], ⟨cur, inSec, [⟨S, K, V, u⟩]⟩) := by
  by_cases hH : isHeaderLine l = true
  · rw [if_pos hH]
    unfold batchLine
    rw [if_pos hH]
    cases hin : inSec with
    | false =>
      have hc : ¬(false = true ∧ u = false ∧ S = cur) := by simp
      simp [hc]
    | true =>
      by_cases hc : u = false ∧ S = cur
      · simp [appendFor, hc]
      · have hc' : ¬(true = true ∧ u = false ∧ S = cur) := by simpa using hc
        simp [appendFor, hc, hc']
  · rw [if_neg hH]
    unfold batchLine
    rw [if_neg hH]
    by_cases hEq : (inSec && hasEqSign l) = true
    · rw [if_pos hEq]
      obtain ⟨hin, heq⟩ := Bool.and_eq_true_iff.mp hEq
      by_cases hm : S = cur ∧ K = lineKey l
      · have : findMatch cur (lineKey l) [⟨S, K, V, u⟩] = some ⟨S, K, V, u⟩ := by
          simp [findMatch, hm.1, hm.2]
        rw [this]
        have hmk : markFirstMatch cur (lineKey l) [⟨S, K, V, u⟩] = [⟨S, K, V, true⟩] := by
          simp [markFirstMatch, hm.1, hm.2]
        rw [hmk, if_pos ⟨hin, heq, hm.1, hm.2⟩]
      · have : findMatch cur (lineKey l) [⟨S, K, V, u⟩] = none := by
          simp only [findMatch]
          rw [if_neg hm]
        rw [this, if_neg (fun hc => hm ⟨hc.2.2.1, hc.2.2.2⟩)]
    · rw [if_neg hEq]
      have : ¬(inSec = true ∧ hasEqSign l = true ∧ S = cur ∧ K = lineKey l) := by
        rintro ⟨h1, h2, _⟩
        exact hEq (by simp [h1, h2])
      rw [if_neg this]

theorem batchLine_singleton_snd (S K V cur : String) (inSec u : Bool) (l : String) :
    ∃ c1 i1 u1, (batchLine ⟨cur, inSec, [⟨S, K, V, u⟩]⟩ l).2 = ⟨c1, i1, [⟨S, K, V, u1⟩]⟩ := by
  rw [batchLine_singleton_cases]
  split_ifs <;> exact ⟨_, _, _, rfl⟩

theorem runBatch_singleton_shape (S K V : String) :
    ∀ (ls : List String) (cur : String) (inSec u : Bool),
      ∃ c' i' u',
        (runBatchLines ⟨cur, inSec, [⟨S, K, V, u⟩]⟩ ls).2 = ⟨c', i', [⟨S, K, V, u'⟩]⟩ ∧
          (u = true → u' = true) := by
  intro ls
  induction ls with
  | nil => intro cur inSec u; exact ⟨cur, inSec, u, rfl, fun h => h⟩
  | cons l ls ih =>
    intro cur inSec u
    rw [runBatchLines_cons, batchLine_singleton_cases]
    split_ifs with h1 h2 h3
    · obtain ⟨c', i', u', h, hm⟩ := ih (parseHeaderName cur l) true true
      exact ⟨c', i', u', h, fun _ => hm rfl⟩
    · exact ih (parseHeaderName cur l) true u
    · obtain ⟨c', i', u', h, hm⟩ := ih cur inSec true
      exact ⟨c', i', u', h, fun _ => hm rfl⟩
    · exact ih cur inSec u

-- ==========================================================================
-- C3 (amended): rerunning the batch on its own output is the identity
-- ==========================================================================

theorem rerun_chunk (S K V : String) (hK : WFKey K) :
    ∀ (l cur : String) (inSec u : Bool),
      runBatchLines ⟨cur, inSec, [⟨S, K, V, u⟩]⟩
          (batchLine ⟨cur, inSec, [⟨S, K, V, u⟩]⟩ l).1 =
        batchLine ⟨cur, inSec, [⟨S, K, V, u⟩]⟩ l := by
  obtain ⟨hK1, hK2, hK3⟩ := hK
  have hc1 : isHeaderLine (canonLine K V) = false := isHeaderLine_canon V hK3
  have hc2 : hasEqSign (canonLine K V) = true := hasEqSign_canon K V
  have hc3 : lineKey (canonLine K V) = K := lineKey_canon V hK1 hK2
  intro l cur inSec u
  rw [batchLine_singleton_cases]
  split_ifs with h1 h2 h3
  · obtain ⟨hin, hu, hsc⟩ := h2
    have hstep : ∀ u', batchLine ⟨cur, inSec, [⟨S, K, V, u'⟩]⟩ (canonLine K V) =
        ([canonLine K V], ⟨cur, inSec, [⟨S, K, V, true⟩]⟩) := by
      intro u'
      rw [batchLine_singleton_cases]
      rw [if_neg (by simp [hc1]), if_pos ⟨hin, hc2, hsc, hc3.symm⟩]
    have hstep2 : batchLine ⟨cur, inSec, [⟨S, K, V, true⟩]⟩ l =
        ([] ++ [l], ⟨parseHeaderName cur l, true, [⟨S, K, V, true⟩]⟩) := by
      rw [batchLine_singleton_cases]
      have hfalse : ¬(inSec = true ∧ (true : Bool) = false ∧ S = cur) := by simp
      simp only [if_pos h1, if_neg hfalse]
    simp only [List.singleton_append]
    rw [runBatchLines_cons, hstep u, runBatchLines_cons, hstep2, runBatchLines_nil]
    simp
  · have hstep : batchLine ⟨cur, inSec, [⟨S, K, V, u⟩]⟩ l =
        ([] ++ [l], ⟨parseHeaderName cur l, true, [⟨S, K, V, u⟩]⟩) := by
      rw [batchLine_singleton_cases]
      simp only [if_pos h1, if_neg h2]
    simp only [List.nil_append]
    rw [runBatchLines_cons, hstep, runBatchLines_nil]
    simp
  · obtain ⟨hin, heq, hsc, hkey⟩ := h3
    have hstep : batchLine ⟨cur, inSec, [⟨S, K, V, u⟩]⟩ (canonLine K V) =
        ([canonLine K V], ⟨cur, inSec, [⟨S, K, V, true⟩]⟩) := by
      rw [batchLine_singleton_cases]
      rw [if_neg (by simp [hc1]), if_pos ⟨hin, hc2, hsc, hc3.symm⟩]
    rw [runBatchLines_cons, hstep, runBatchLines_nil]
    simp
  · have hstep : batchLine ⟨cur, inSec, [⟨S, K, V, u⟩]⟩ l =
        ([l], ⟨cur, inSec, [⟨S, K, V, u⟩]⟩) := by
      rw [batchLine_singleton_cases]
      simp only [if_neg h1, if_neg h3]
    rw [runBatchLines_cons, hstep, runBatchLines_nil]
    simp

theorem rerun_lines (S K V : String) (hK : WFKey K) :
    ∀ (ls : List String) (cur : String) (inSec u : Bool),
      runBatchLines ⟨cur, inSec, [⟨S, K, V, u⟩]⟩
          ((runBatchLines ⟨cur, inSec, [⟨S, K, V, u⟩]⟩ ls).1) =
        runBatchLines ⟨cur, inSec, [⟨S, K, V, u⟩]⟩ ls := by
  intro ls
  induction ls with
  | nil => intro cur inSec u; rfl
  | cons l ls ih =>
    intro cur inSec u
    obtain ⟨c1, i1, u1, h1⟩ := batchLine_singleton_snd S K V cur inSec u l
    rw [runBatchLines_cons, runBatchLines_append, rerun_chunk S K V ⟨hK.1, hK.2.1, hK.2.2⟩,
      h1, ih c1 i1 u1]

theorem eofFlush_updated (c : String) (i : Bool) (S K V : String) :
    eofFlush ⟨c, i, [⟨S, K, V, true⟩]⟩ = ([], [⟨S, K, V, true⟩]) := by
  unfold eofFlush
  cases i <;> simp [appendFor]

theorem missingSections_single_done (S K V : String) :
    missingSections [⟨S, K, V, true⟩] = [] :=
  missingSections_updated (by simp)

theorem missingSections_single_pending (S K V : String) :
    missingSections [⟨S, K, V, false⟩] =
      ["", "[" ++ S ++ "]", canonLine K V] := by
  rw [missingSections_cons]
  simp [appendFor, missingSections_nil]

theorem batch_canon_step (S K V c : String) (hK : WFKey K) (hsc : S = c) (u : Bool) :
    batchLine ⟨c, true, [⟨S, K, V, u⟩]⟩ (canonLine K V) =
      ([canonLine K V], ⟨c, true, [⟨S, K, V, true⟩]⟩) := by
  obtain ⟨hK1, hK2, hK3⟩ := hK
  rw [batchLine_singleton_cases]
  rw [if_neg (by simp [isHeaderLine_canon V hK3]),
    if_pos ⟨rfl, hasEqSign_canon K V, hsc, (lineKey_canon V hK1 hK2).symm⟩]

theorem synth_section_run (S K V c : String) (i : Bool) (hS : WFSection S) (hK : WFKey K)
    (hno : ¬(i = true ∧ S = c)) :
    runBatchLines ⟨c, i, [⟨S, K, V, false⟩]⟩ ["", "[" ++ S ++ "]", canonLine K V] =
      (["", "[" ++ S ++ "]", canonLine K V], ⟨S, true, [⟨S, K, V, true⟩]⟩) := by
  have hstep1 : batchLine ⟨c, i, [⟨S, K, V, false⟩]⟩ "" =
      ([""], ⟨c, i, [⟨S, K, V, false⟩]⟩) := by
    rw [batchLine_singleton_cases]
    rw [if_neg (by decide), if_neg (by rintro ⟨_, h, _⟩; revert h; decide)]
  have hstep2 : batchLine ⟨c, i, [⟨S, K, V, false⟩]⟩ ("[" ++ S ++ "]") =
      ([] ++ ["[" ++ S ++ "]"], ⟨S, true, [⟨S, K, V, false⟩]⟩) := by
    rw [batchLine_singleton_cases]
    have hcond : ¬(i = true ∧ (false : Bool) = false ∧ S = c) := by
      rintro ⟨hi, _, hc⟩
      exact hno ⟨hi, hc⟩
    rw [if_pos (isHeaderLine_bracket S), if_neg hcond, if_neg hcond,
      parseHeaderName_bracket c hS]
  have hstep3 := batch_canon_step S K V S hK rfl false
  rw [runBatchLines_cons, hstep1, runBatchLines_cons, hstep2, runBatchLines_cons, hstep3,
    runBatchLines_nil]
  simp

/-- C3 (amended): applying the single-entry batch update twice yields output
    byte-identical to applying it once, provided the section name is nonempty,
    trimmed and free of ']' and the key is trimmed, free of '=' and does not
    start with '[' (the counterexample shows the claim fails for keys the
    canonical "key = value" line does not re-parse to themselves). -/
theorem write_config_batch_idempotent :
    ∀ (doc : List String) (S K V : String),
      WFSection S → WFKey K →
      write_config_batch (write_config_batch doc [(S, K, V)]) [(S, K, V)] =
        write_config_batch doc [(S, K, V)] := by
  intro doc S K V hS hK
  have hrun1 := rerun_lines S K V hK doc "" false false
  obtain ⟨c, i, v, hstF, -⟩ := runBatch_singleton_shape S K V doc "" false false
  have hinit : initEntries [(S, K, V)] = [⟨S, K, V, false⟩] := rfl
  unfold write_config_batch
  rw [hinit]
  cases v with
  | true =>
    rw [hstF, eofFlush_updated, missingSections_single_done]
    simp only [List.append_nil]
    rw [hrun1, hstF, eofFlush_updated, missingSections_single_done]
    simp
  | false =>
    by_cases hB1 : i = true ∧ S = c
    · obtain ⟨hi, hsc⟩ := hB1
      subst hi
      have hq : eofFlush ⟨c, true, [⟨S, K, V, false⟩]⟩ =
          ([canonLine K V], [⟨S, K, V, true⟩]) := by
        unfold eofFlush
        simp [appendFor, hsc]
      rw [hstF, hq, missingSections_single_done]
      simp only [List.append_nil]
      rw [runBatchLines_append, hrun1, hstF]
      rw [runBatchLines_cons, batch_canon_step S K V c hK hsc false, runBatchLines_nil]
      rw [eofFlush_updated, missingSections_single_done]
      simp
    · have hq : eofFlush ⟨c, i, [⟨S, K, V, false⟩]⟩ = ([], [⟨S, K, V, false⟩]) := by
        unfold eofFlush
        cases hi : i with
        | false => simp
        | true =>
          have hsc : ¬(S = c) := fun h => hB1 ⟨hi, h⟩
          simp [appendFor, hsc]
      rw [hstF, hq, missingSections_single_pending]
      simp only [List.append_nil, List.nil_append]
      rw [runBatchLines_append, hrun1, hstF, synth_section_run S K V c i hS hK hB1]
      rw [eofFlush_updated, missingSections_single_done]
      simp

/-- C3 witness: the amended idempotence applied at a concrete document, section,
    key and value, all hypotheses discharged by computation. -/
theorem write_config_batch_idempotent_witness :
    write_config_batch (write_config_batch ["[a]", "x = 1"] [("a", "x", "2")])
        [("a", "x", "2")] =
      write_config_batch ["[a]", "x = 1"] [("a", "x", "2")] :=
  write_config_batch_idempotent ["[a]", "x = 1"] "a" "x" "2" (by decide) (by decide)

-- ==========================================================================
-- C10
-- ==========================================================================

theorem runValueLines_nil (sect key nv : String) (st : ValueState) :
    runValueLines sect key nv st [] = ([], st) := rfl

theorem runValueLines_cons (sect key nv : String) (st : ValueState) (l : String)
    (ls : List String) :
    runValueLines sect key nv st (l :: ls) =
      ((valueLine sect key nv st l).1 ++
          (runValueLines sect key nv (valueLine sect key nv st l).2 ls).1,
        (runValueLines sect key nv (valueLine sect key nv st l).2 ls).2) := rfl

theorem runValueLines_append (sect key nv : String) :
    ∀ (a b : List String) (st : ValueState),
      runValueLines sect key nv st (a ++ b) =
        ((runValueLines sect key nv st a).1 ++
            (runValueLines sect key nv (runValueLines sect key nv st a).2 b).1,
          (runValueLines sect key nv (runValueLines sect key nv st a).2 b).2) := by
  intro a
  induction a with
  | nil => intro b st; simp [runValueLines]
  | cons l a ih => intro b st; simp [runValueLines, ih, List.append_assoc]

/-- In write_config_value's scan, being inside the target section implies the
    section_found flag is set: the flag is raised at the very header whose name
    comparison sets in_section, and no step ever clears it while staying in. -/
theorem value_found_invariant (sect key nv : String) :
    ∀ (ls : List String) (st : ValueState),
      (st.inSection = true → st.sectionFound = true) →
      ((runValueLines sect key nv st ls).2.inSection = true →
        (runValueLines sect key nv st ls).2.sectionFound = true) := by
  intro ls
  induction ls with
  | nil => intro st h; exact h
  | cons l ls ih =>
    intro st h
    rw [runValueLines_cons]
    dsimp only
    apply ih
    unfold valueLine
    by_cases hH : isHeaderLine l = true
    · rw [if_pos hH]
      dsimp only
      intro hin
      rw [hin]
      simp
    · rw [if_neg hH]
      by_cases h2 : (st.inSection && !st.keyUpdated && hasEqSign l) = true
      · rw [if_pos h2]
        by_cases h3 : lineKey l = key
        · rw [if_pos h3]
          exact h
        · rw [if_neg h3]
          exact h
      · rw [if_neg h2]
        exact h

/-- Once key_updated and section_found are both set, write_config_value copies
    every remaining line verbatim (section headers included: their append is
    guarded by key_updated) and neither flag is ever cleared again. -/
theorem runValue_done (sect key nv : String) :
    ∀ (ls : List String) (cur : String) (inSec : Bool),
      ∃ c' i',
        runValueLines sect key nv ⟨cur, inSec, true, true⟩ ls =
          (ls, ⟨c', i', true, true⟩) := by
  intro ls
  induction ls with
  | nil => intro cur inSec; exact ⟨cur, inSec, rfl⟩
  | cons l ls ih =>
    intro cur inSec
    by_cases hH : isHeaderLine l = true
    · have hstep : valueLine sect key nv ⟨cur, inSec, true, true⟩ l =
          ([l], ⟨parseHeaderName cur l,
            decide (parseHeaderName cur l = sect), true, true⟩) := by
        unfold valueLine
        rw [if_pos hH]
        simp
      obtain ⟨c', i', hrun⟩ :=
        ih (parseHeaderName cur l) (decide (parseHeaderName cur l = sect))
      refine ⟨c', i', ?_⟩
      rw [runValueLines_cons, hstep, hrun]
      rfl
    · have hstep : valueLine sect key nv ⟨cur, inSec, true, true⟩ l =
          ([l], ⟨cur, inSec, true, true⟩) := by
        unfold valueLine
        rw [if_neg hH, if_neg (by simp)]
      obtain ⟨c', i', hrun⟩ := ih cur inSec
      refine ⟨c', i', ?_⟩
      rw [runValueLines_cons, hstep, hrun]
      rfl

/-- Inside the target section with the (single) entry already satisfied, the
    batch scan maps an arbitrary header-free stretch of the body line by line:
    every line whose parsed key is K becomes the canonical new line (the entry
    search ignores the updated flag), every other line is copied verbatim. -/
theorem runBatch_mixed_body (S K V : String) :
    ∀ ls : List String,
      (∀ x ∈ ls, isHeaderLine x = false) →
      runBatchLines ⟨S, true, [⟨S, K, V, true⟩]⟩ ls =
        (ls.map (fun x =>
            if hasEqSign x = true ∧ lineKey x = K then canonLine K V else x),
          ⟨S, true, [⟨S, K, V, true⟩]⟩) := by
  intro ls
  induction ls with
  | nil => intro _; rfl
  | cons d ls ih =>
    intro h
    have hH : isHeaderLine d = false := h d (by simp)
    by_cases hm : hasEqSign d = true ∧ lineKey d = K
    · have hstep : batchLine ⟨S, true, [⟨S, K, V, true⟩]⟩ d =
          ([canonLine K V], ⟨S, true, [⟨S, K, V, true⟩]⟩) := by
        rw [batchLine_singleton_cases, if_neg (by simp [hH]),
          if_pos ⟨rfl, hm.1, rfl, hm.2.symm⟩]
      rw [runBatchLines_cons, hstep, ih (fun x hx => h x (by simp [hx]))]
      rw [List.map_cons, if_pos hm]
      simp
    · have hstep : batchLine ⟨S, true, [⟨S, K, V, true⟩]⟩ d =
          ([d], ⟨S, true, [⟨S, K, V, true⟩]⟩) := by
        rw [batchLine_singleton_cases, if_neg (by simp [hH]),
          if_neg (fun hc => hm ⟨hc.2.1, hc.2.2.2.symm⟩)]
      rw [runBatchLines_cons, hstep, ih (fun x hx => h x (by simp [hx]))]
      rw [List.map_cons, if_neg hm]
      simp

/-- C10: for every document split as P ++ d1 :: B ++ Q in which the prefix P
    leaves the scan inside the target section S with the key not yet updated,
    d1 is the first line of that section whose parsed key is K, B is the rest
    of the section body (opaque lines and other keys freely mixed with further
    duplicate K lines) and Q the rest of the file (later sections included):
    write_config_value rewrites only d1 to the canonical form and copies all of
    B and Q verbatim (the key_updated guard), while write_config_batch rewrites
    every K line of B as well (its entry search ignores the updated flag) and
    scans Q with the entry already satisfied. -/
theorem write_value_vs_batch_on_duplicates :
    ∀ (S K V : String) (P B Q : List String) (d1 : String),
      (runValueLines S K V ⟨"", false, false, false⟩ P).2.inSection = true →
      (runValueLines S K V ⟨"", false, false, false⟩ P).2.keyUpdated = false →
      (runBatchLines ⟨"", false, [⟨S, K, V, false⟩]⟩ P).2 =
        ⟨S, true, [⟨S, K, V, false⟩]⟩ →
      isHeaderLine d1 = false → hasEqSign d1 = true → lineKey d1 = K →
      (∀ x ∈ B, isHeaderLine x = false) →
      write_config_value (P ++ d1 :: B ++ Q) S K V =
          (runValueLines S K V ⟨"", false, false, false⟩ P).1 ++
            canonLine K V :: (B ++ Q) ∧
        write_config_batch (P ++ d1 :: B ++ Q) [(S, K, V)] =
          (runBatchLines ⟨"", false, [⟨S, K, V, false⟩]⟩ P).1 ++
            canonLine K V ::
              (B.map (fun x =>
                  if hasEqSign x = true ∧ lineKey x = K then canonLine K V else x) ++
                (runBatchLines ⟨S, true, [⟨S, K, V, true⟩]⟩ Q).1) := by
  intro S K V P B Q d1 hv1 hv2 hb hH1 hEq1 hkey1 hB
  have hfound : (runValueLines S K V ⟨"", false, false, false⟩ P).2.sectionFound = true :=
    value_found_invariant S K V P ⟨"", false, false, false⟩ (by simp) hv1
  constructor
  · have hstate : (runValueLines S K V ⟨"", false, false, false⟩ P).2 =
        ⟨(runValueLines S K V ⟨"", false, false, false⟩ P).2.cur, true, false, true⟩ := by
      have h0 : (runValueLines S K V ⟨"", false, false, false⟩ P).2 =
          ⟨(runValueLines S K V ⟨"", false, false, false⟩ P).2.cur,
            (runValueLines S K V ⟨"", false, false, false⟩ P).2.inSection,
            (runValueLines S K V ⟨"", false, false, false⟩ P).2.keyUpdated,
            (runValueLines S K V ⟨"", false, false, false⟩ P).2.sectionFound⟩ := rfl
      rw [hv1, hv2, hfound] at h0
      exact h0
    have hstep1 : ∀ c : String, valueLine S K V ⟨c, true, false, true⟩ d1 =
        ([canonLine K V], ⟨c, true, true, true⟩) := by
      intro c
      unfold valueLine
      rw [if_neg (by simp [hH1]), if_pos (by simp [hEq1]), if_pos hkey1]
    obtain ⟨c', i', hdone⟩ := runValue_done S K V (B ++ Q)
      ((runValueLines S K V ⟨"", false, false, false⟩ P).2.cur) true
    unfold write_config_value
    rw [List.append_assoc, List.cons_append, runValueLines_append]
    dsimp only
    rw [hstate, runValueLines_cons]
    dsimp only
    rw [hstep1, hdone]
    have hfin : valueFinish S K V ⟨c', i', true, true⟩ = [] := by
      unfold valueFinish
      simp
    rw [hfin]
    simp
  · have hstep1 : batchLine ⟨S, true, [⟨S, K, V, false⟩]⟩ d1 =
        ([canonLine K V], ⟨S, true, [⟨S, K, V, true⟩]⟩) := by
      rw [batchLine_singleton_cases, if_neg (by simp [hH1]),
        if_pos ⟨rfl, hEq1, rfl, hkey1.symm⟩]
    have hdoc : P ++ d1 :: B ++ Q = P ++ (d1 :: (B ++ Q)) := by simp
    unfold write_config_batch
    rw [show initEntries [(S, K, V)] = [⟨S, K, V, false⟩] from rfl]
    rw [hdoc, runBatchLines_append]
    dsimp only
    rw [hb, runBatchLines_cons]
    dsimp only
    rw [hstep1]
    dsimp only
    rw [runBatchLines_append]
    dsimp only
    rw [runBatch_mixed_body S K V B hB]
    dsimp only
    obtain ⟨c', i', u', hsh, hmono⟩ := runBatch_singleton_shape S K V Q S true true
    rw [hsh, hmono rfl]
    rw [eofFlush_updated, missingSections_single_done]
    simp

/-- C10 witness: the theorem instantiated on a document with another key and a
    blank line interleaved in the section, a duplicate K line after them, and a
    further section following; hypotheses discharged by computation. -/
theorem write_value_vs_batch_on_duplicates_witness :
    write_config_value
        (["[s]", "w = 0"] ++ "k = a" :: ["", "k = b"] ++ ["[t]", "k = c"]) "s" "k" "9" =
        (runValueLines "s" "k" "9" ⟨"", false, false, false⟩ ["[s]", "w = 0"]).1 ++
          canonLine "k" "9" :: (["", "k = b"] ++ ["[t]", "k = c"]) ∧
      write_config_batch
          (["[s]", "w = 0"] ++ "k = a" :: ["", "k = b"] ++ ["[t]", "k = c"]) [("s", "k", "9")] =
        (runBatchLines ⟨"", false, [⟨"s", "k", "9", false⟩]⟩ ["[s]", "w = 0"]).1 ++
          canonLine "k" "9" ::
            (["", "k = b"].map (fun x =>
                if hasEqSign x = true ∧ lineKey x = "k" then canonLine "k" "9" else x) ++
              (runBatchLines ⟨"s", true, [⟨"s", "k", "9", true⟩]⟩ ["[t]", "k = c"]).1) :=
  write_value_vs_batch_on_duplicates "s" "k" "9" ["[s]", "w = 0"] ["", "k = b"]
    ["[t]", "k = c"] "k = a" (by decide) (by decide) (by decide) (by decide) (by decide)
    (by decide) (by decide)

-- ==========================================================================
-- C2 (amended): the written value is the one read back
-- ==========================================================================

theorem readLoop_nil (sect key cur : String) (inSec : Bool) :
    readLoop sect key cur inSec [] = none := rfl

theorem readLoop_cons (sect key cur : String) (inSec : Bool) (l : String) (ls : List String) :
    readLoop sect key cur inSec (l :: ls) =
      (if isHeaderLine (stripCRLF l) then
        readLoop sect key (parseHeaderName cur (stripCRLF l))
          (decide (parseHeaderName cur (stripCRLF l) = sect)) ls
      else if inSec && hasEqSign (stripCRLF l) then
        if lineKey (stripCRLF l) = key then some (lineValue (stripCRLF l))
        else readLoop sect key cur inSec ls
      else readLoop sect key cur inSec ls) := rfl

-- ==========================================================================
-- C6 (amended): entries sharing a (section, key) pair
-- ==========================================================================

/-- When every entry of the array carries the same key K and the parsed file
    key differs from K, the entry search finds nothing. -/
theorem findMatch_key_ne {K : String} :
    ∀ {es : List ConfigEntry}, (∀ e ∈ es, e.key = K) →
      ∀ {c k : String}, K ≠ k → findMatch c k es = none := by
  intro es
  induction es with
  | nil => intro _ c k _; rfl
  | cons e rest ih =>
    intro hall c k hne
    have he : e.key = K := hall e (by simp)
    unfold findMatch
    rw [if_neg (fun hc => hne (by rw [← he]; exact hc.2))]
    exact ih (fun e' he' => hall e' (by simp [he'])) hne

/-- The section-close append over a run of not-yet-updated entries all lying in
    the closing section: each is emitted in canonical form, in order, and
    marked updated. -/
theorem appendFor_dup_vals (S K : String) :
    ∀ Vs : List String,
      appendFor S (Vs.map (fun v => (⟨S, K, v, false⟩ : ConfigEntry))) =
        (Vs.map (fun v => canonLine K v),
          Vs.map (fun v => (⟨S, K, v, true⟩ : ConfigEntry))) := by
  intro Vs
  induction Vs with
  | nil => rfl
  | cons v vs ih =>
    simp only [List.map_cons, appendFor]
    rw [ih]
    simp

/-- With the first duplicate entry already satisfied and the later duplicates
    still pending, the batch scan maps a header-free stretch of the section
    body line by line: every K line becomes canonical with the FIRST entry's
    value (the entry search breaks at the first matching index and ignores the
    updated flag), other lines are copied; the entries are unchanged. -/
theorem runBatch_dup_body (S K V1 : String) (Vs : List String) :
    ∀ ls : List String,
      (∀ x ∈ ls, isHeaderLine x = false) →
      runBatchLines ⟨S, true, ⟨S, K, V1, true⟩ :: Vs.map (fun v => ⟨S, K, v, false⟩)⟩ ls =
        (ls.map (fun x =>
            if hasEqSign x = true ∧ lineKey x = K then canonLine K V1 else x),
          ⟨S, true, ⟨S, K, V1, true⟩ :: Vs.map (fun v => ⟨S, K, v, false⟩)⟩) := by
  intro ls
  induction ls with
  | nil => intro _; rfl
  | cons d ls ih =>
    intro h
    have hH : isHeaderLine d = false := h d (by simp)
    by_cases hm : hasEqSign d = true ∧ lineKey d = K
    · have hstep : batchLine ⟨S, true, ⟨S, K, V1, true⟩ :: Vs.map (fun v => ⟨S, K, v, false⟩)⟩ d =
          ([canonLine K V1],
            ⟨S, true, ⟨S, K, V1, true⟩ :: Vs.map (fun v => ⟨S, K, v, false⟩)⟩) := by
        unfold batchLine
        rw [if_neg (by simp [hH]), if_pos (by simp [hm.1]), hm.2]
        simp [findMatch, markFirstMatch]
      rw [runBatchLines_cons, hstep, ih (fun x hx => h x (by simp [hx]))]
      rw [List.map_cons, if_pos hm]
      simp
    · by_cases heq : hasEqSign d = true
      · have hkne : K ≠ lineKey d := fun hk => hm ⟨heq, hk.symm⟩
        have hfind : findMatch S (lineKey d)
            (⟨S, K, V1, true⟩ :: Vs.map (fun v => ⟨S, K, v, false⟩)) = none := by
          apply findMatch_key_ne ?_ hkne
          intro e he
          rcases List.mem_cons.mp he with h1 | h1
          · rw [h1]
          · obtain ⟨v, hv, rfl⟩ := List.mem_map.mp h1
            rfl
        have hstep : batchLine ⟨S, true, ⟨S, K, V1, true⟩ :: Vs.map (fun v => ⟨S, K, v, false⟩)⟩ d =
            ([d], ⟨S, true, ⟨S, K, V1, true⟩ :: Vs.map (fun v => ⟨S, K, v, false⟩)⟩) := by
          unfold batchLine
          rw [if_neg (by simp [hH]), if_pos (by simp [heq]), hfind]
        rw [runBatchLines_cons, hstep, ih (fun x hx => h x (by simp [hx]))]
        rw [List.map_cons, if_neg hm]
        simp
      · have hstep : batchLine ⟨S, true, ⟨S, K, V1, true⟩ :: Vs.map (fun v => ⟨S, K, v, false⟩)⟩ d =
            ([d], ⟨S, true, ⟨S, K, V1, true⟩ :: Vs.map (fun v => ⟨S, K, v, false⟩)⟩) := by
          unfold batchLine
          rw [if_neg (by simp [hH]), if_neg (by simpa using heq)]
        rw [runBatchLines_cons, hstep, ih (fun x hx => h x (by simp [hx]))]
        rw [List.map_cons, if_neg hm]
        simp

/-- At the header closing the section, the still-pending duplicate entries are
    appended in input order, each in canonical form with its own value, right
    before the header line; all entries leave the close updated. -/
theorem batchLine_dup_close (S K V1 : String) (Vs : List String) (hl : String)
    (hH : isHeaderLine hl = true) :
    batchLine ⟨S, true, ⟨S, K, V1, true⟩ :: Vs.map (fun v => ⟨S, K, v, false⟩)⟩ hl =
      (Vs.map (fun v => canonLine K v) ++ [hl],
        ⟨parseHeaderName S hl, true,
          ⟨S, K, V1, true⟩ :: Vs.map (fun v => ⟨S, K, v, true⟩)⟩) := by
  have happ : appendFor S (⟨S, K, V1, true⟩ :: Vs.map (fun v => (⟨S, K, v, false⟩ : ConfigEntry))) =
      (Vs.map (fun v => canonLine K v),
        ⟨S, K, V1, true⟩ :: Vs.map (fun v => (⟨S, K, v, true⟩ : ConfigEntry))) := by
    simp only [appendFor, appendFor_dup_vals]
    simp
  unfold batchLine
  rw [if_pos hH]
  simp [happ]

/-- Marking the first match never clears an updated flag. -/
theorem markFirstMatch_all_updated (c k : String) :
    ∀ es : List ConfigEntry, (∀ e ∈ es, e.updated = true) →
      ∀ e ∈ markFirstMatch c k es, e.updated = true := by
  intro es
  induction es with
  | nil => intro _ e he; simp [markFirstMatch] at he
  | cons a rest ih =>
    intro h e he
    unfold markFirstMatch at he
    by_cases hc : a.sec = c ∧ a.key = k
    · rw [if_pos hc] at he
      rcases List.mem_cons.mp he with h1 | h1
      · subst h1; rfl
      · exact h e (by simp [h1])
    · rw [if_neg hc] at he
      rcases List.mem_cons.mp he with h1 | h1
      · rw [h1]
        exact h a (by simp)
      · exact ih (fun e' he' => h e' (by simp [he'])) e h1

/-- One scan step never clears an updated flag once all entries are updated. -/
theorem batchLine_all_updated (st : BatchState) (l : String)
    (h : ∀ e ∈ st.entries, e.updated = true) :
    ∀ e ∈ (batchLine st l).2.entries, e.updated = true := by
  dsimp only [batchLine]
  split
  · split
    · rw [appendFor_updated h]
      exact h
    · exact h
  · split
    · split
      · exact markFirstMatch_all_updated _ _ _ h
      · exact h
    · exact h

/-- Once every entry is updated, the whole remaining scan keeps them updated. -/
theorem runBatch_all_updated :
    ∀ (ls : List String) (st : BatchState), (∀ e ∈ st.entries, e.updated = true) →
      ∀ e ∈ (runBatchLines st ls).2.entries, e.updated = true := by
  intro ls
  induction ls with
  | nil => intro st h; exact h
  | cons l ls ih =>
    intro st h
    rw [runBatchLines_cons]
    dsimp only
    exact ih (batchLine st l).2 (batchLine_all_updated st l h)

/-- With every entry updated, the end-of-file flush appends nothing. -/
theorem eofFlush_all_updated (st : BatchState)
    (h : ∀ e ∈ st.entries, e.updated = true) :
    eofFlush st = ([], st.entries) := by
  unfold eofFlush
  split
  · exact appendFor_updated h
  · rfl

/-- The read_config_value loop with its section-tracking state made explicit:
    the same per-line steps as readLoop, returning together with the result the
    current section and in-section flag at the point the loop stops (first
    match or end of input). -/
def readScan (sect key : String) (cur : String) (inSec : Bool) :
    List String → Option String × String × Bool
  | [] => (none, cur, inSec)
  | l :: ls =>
    if isHeaderLine (stripCRLF l) then
      readScan sect key (parseHeaderName cur (stripCRLF l))
        (decide (parseHeaderName cur (stripCRLF l) = sect)) ls
    else if inSec && hasEqSign (stripCRLF l) then
      if lineKey (stripCRLF l) = key then (some (lineValue (stripCRLF l)), cur, inSec)
      else readScan sect key cur inSec ls
    else readScan sect key cur inSec ls

theorem readScan_nil (sect key cur : String) (inSec : Bool) :
    readScan sect key cur inSec [] = (none, cur, inSec) := rfl

theorem readScan_cons (sect key cur : String) (inSec : Bool) (l : String) (ls : List String) :
    readScan sect key cur inSec (l :: ls) =
      (if isHeaderLine (stripCRLF l) then
        readScan sect key (parseHeaderName cur (stripCRLF l))
          (decide (parseHeaderName cur (stripCRLF l) = sect)) ls
      else if inSec && hasEqSign (stripCRLF l) then
        if lineKey (stripCRLF l) = key then (some (lineValue (stripCRLF l)), cur, inSec)
        else readScan sect key cur inSec ls
      else readScan sect key cur inSec ls) := rfl

theorem readLoop_eq_readScan (sect key : String) :
    ∀ (ls : List String) (cur : String) (inSec : Bool),
      readLoop sect key cur inSec ls = (readScan sect key cur inSec ls).1 := by
  intro ls
  induction ls with
  | nil => intro cur inSec; rfl
  | cons l ls ih =>
    intro cur inSec
    rw [readLoop_cons, readScan_cons]
    by_cases h1 : isHeaderLine (stripCRLF l) = true
    · rw [if_pos h1, if_pos h1]
      exact ih _ _
    · rw [if_neg h1, if_neg h1]
      by_cases h2 : (inSec && hasEqSign (stripCRLF l)) = true
      · rw [if_pos h2, if_pos h2]
        by_cases h3 : lineKey (stripCRLF l) = key
        · rw [if_pos h3, if_pos h3]
        · rw [if_neg h3, if_neg h3]
          exact ih _ _
      · rw [if_neg h2, if_neg h2]
        exact ih _ _

theorem readScan_append (sect key : String) :
    ∀ (a b : List String) (cur : String) (inSec : Bool),
      readScan sect key cur inSec (a ++ b) =
        if (readScan sect key cur inSec a).1 = none then
          readScan sect key (readScan sect key cur inSec a).2.1
            (readScan sect key cur inSec a).2.2 b
        else readScan sect key cur inSec a := by
  intro a
  induction a with
  | nil =>
    intro b cur inSec
    rw [List.nil_append, readScan_nil]
    rw [if_pos rfl]
  | cons l a ih =>
    intro b cur inSec
    rw [List.cons_append, readScan_cons, readScan_cons]
    by_cases h1 : isHeaderLine (stripCRLF l) = true
    · rw [if_pos h1, if_pos h1]
      exact ih b _ _
    · rw [if_neg h1, if_neg h1]
      by_cases h2 : (inSec && hasEqSign (stripCRLF l)) = true
      · rw [if_pos h2, if_pos h2]
        by_cases h3 : lineKey (stripCRLF l) = key
        · rw [if_pos h3, if_pos h3]
          rw [if_neg (by simp)]
        · rw [if_neg h3, if_neg h3]
          exact ih b cur inSec
      · rw [if_neg h2, if_neg h2]
        exact ih b cur inSec

/-- C6 (amended): for every document split as P ++ d :: B ++ hl :: Q in which
    the prefix P leaves the batch scan inside section S with no entry touched
    yet (and the read scan there unmatched), d is the first K line of the
    section, B the rest of the section body (header-free, arbitrary content)
    and hl the header closing the section, and for every batch whose first
    entry is (S, K, V1) followed by arbitrarily many duplicates (S, K, v) for
    v in Vs: the FIRST entry in input order wins — d and every K line of B are
    rewritten with V1 (the entry search breaks at the first matching index),
    each later duplicate entry is appended as an additional canonical key line
    at the close of the section, immediately before the header hl, and a read
    of (S, K) on the output returns V1. -/
theorem write_config_batch_first_entry_wins :
    ∀ (S K V1 : String) (Vs : List String) (P B Q : List String) (d hl : String),
      WFKey K → WFValue V1 → CleanStr K → CleanStr V1 →
      (runBatchLines ⟨"", false, ⟨S, K, V1, false⟩ :: Vs.map (fun v => ⟨S, K, v, false⟩)⟩ P).2 =
        ⟨S, true, ⟨S, K, V1, false⟩ :: Vs.map (fun v => ⟨S, K, v, false⟩)⟩ →
      readScan S K "" false
          ((runBatchLines ⟨"", false, ⟨S, K, V1, false⟩ :: Vs.map (fun v => ⟨S, K, v, false⟩)⟩ P).1) =
        (none, S, true) →
      isHeaderLine d = false → hasEqSign d = true → lineKey d = K →
      (∀ x ∈ B, isHeaderLine x = false) →
      isHeaderLine hl = true →
      write_config_batch (P ++ d :: B ++ hl :: Q)
          ((S, K, V1) :: Vs.map (fun v => (S, K, v))) =
        (runBatchLines ⟨"", false, ⟨S, K, V1, false⟩ :: Vs.map (fun v => ⟨S, K, v, false⟩)⟩ P).1 ++
          canonLine K V1 ::
            (B.map (fun x =>
                if hasEqSign x = true ∧ lineKey x = K then canonLine K V1 else x) ++
              (Vs.map (fun v => canonLine K v) ++ hl ::
                (runBatchLines ⟨parseHeaderName S hl, true,
                    ⟨S, K, V1, true⟩ :: Vs.map (fun v => ⟨S, K, v, true⟩)⟩ Q).1)) ∧
        read_config_value
            (write_config_batch (P ++ d :: B ++ hl :: Q)
              ((S, K, V1) :: Vs.map (fun v => (S, K, v)))) S K =
          some V1 := by
  intro S K V1 Vs P B Q d hl hK hV1 hKc hV1c hb hr hHd hEqd hkeyd hB hHh
  have hstepd : batchLine ⟨S, true, ⟨S, K, V1, false⟩ :: Vs.map (fun v => ⟨S, K, v, false⟩)⟩ d =
      ([canonLine K V1],
        ⟨S, true, ⟨S, K, V1, true⟩ :: Vs.map (fun v => ⟨S, K, v, false⟩)⟩) := by
    unfold batchLine
    rw [if_neg (by simp [hHd]), if_pos (by simp [hEqd]), hkeyd]
    simp [findMatch, markFirstMatch]
  have hinit : initEntries ((S, K, V1) :: Vs.map (fun v => (S, K, v))) =
      ⟨S, K, V1, false⟩ :: Vs.map (fun v => ⟨S, K, v, false⟩) := by
    unfold initEntries
    rw [List.map_cons, List.map_map]
    rfl
  have hallup : ∀ e ∈ (runBatchLines ⟨parseHeaderName S hl, true,
      ⟨S, K, V1, true⟩ :: Vs.map (fun v => ⟨S, K, v, true⟩)⟩ Q).2.entries,
      e.updated = true := by
    apply runBatch_all_updated
    intro e he
    rcases List.mem_cons.mp he with h1 | h1
    · rw [h1]
    · obtain ⟨v, hv, rfl⟩ := List.mem_map.mp h1
      rfl
  have hout : write_config_batch (P ++ d :: B ++ hl :: Q)
      ((S, K, V1) :: Vs.map (fun v => (S, K, v))) =
      (runBatchLines ⟨"", false, ⟨S, K, V1, false⟩ :: Vs.map (fun v => ⟨S, K, v, false⟩)⟩ P).1 ++
        canonLine K V1 ::
          (B.map (fun x =>
              if hasEqSign x = true ∧ lineKey x = K then canonLine K V1 else x) ++
            (Vs.map (fun v => canonLine K v) ++ hl ::
              (runBatchLines ⟨parseHeaderName S hl, true,
                  ⟨S, K, V1, true⟩ :: Vs.map (fun v => ⟨S, K, v, true⟩)⟩ Q).1)) := by
    have hdoc : P ++ d :: B ++ hl :: Q = P ++ (d :: (B ++ hl :: Q)) := by simp
    unfold write_config_batch
    rw [hinit, hdoc, runBatchLines_append]
    dsimp only
    rw [hb, runBatchLines_cons]
    dsimp only
    rw [hstepd]
    dsimp only
    rw [runBatchLines_append]
    dsimp only
    rw [runBatch_dup_body S K V1 Vs B hB]
    dsimp only
    rw [runBatchLines_cons, batchLine_dup_close S K V1 Vs hl hHh]
    dsimp only
    rw [eofFlush_all_updated _ hallup, missingSections_updated hallup]
    simp
  refine ⟨hout, ?_⟩
  rw [hout]
  unfold read_config_value
  rw [readLoop_eq_readScan, readScan_append, hr]
  rw [if_pos rfl]
  dsimp only
  rw [readScan_cons]
  have hcS : stripCRLF (canonLine K V1) = canonLine K V1 :=
    stripCRLF_self (cleanStr_canon hKc hV1c)
  rw [hcS, if_neg (by simp [isHeaderLine_canon V1 hK.2.2]),
    if_pos (by simp [hasEqSign_canon]), if_pos (lineKey_canon V1 hK.1 hK.2.1)]
  dsimp only
  rw [lineValue_canon hV1 hK.2.1]

/-- C6 witness: the generalized claim applied at concrete strings — a prefix
    with another key, a first K line, a section body with a blank line and a
    duplicate K line, a closing header with a further section behind it, and a
    batch carrying two duplicate entries after the first. -/
theorem write_config_batch_first_entry_wins_witness :
    write_config_batch (["[s]", "w = 0"] ++ "k = a" :: ["", "k = b"] ++ "[t]" :: ["k = c"])
        (("s", "k", "1") :: ["2", "3"].map (fun v => ("s", "k", v))) =
      (runBatchLines ⟨"", false, ⟨"s", "k", "1", false⟩ ::
          ["2", "3"].map (fun v => ⟨"s", "k", v, false⟩)⟩ ["[s]", "w = 0"]).1 ++
        canonLine "k" "1" ::
          (["", "k = b"].map (fun x =>
              if hasEqSign x = true ∧ lineKey x = "k" then canonLine "k" "1" else x) ++
            (["2", "3"].map (fun v => canonLine "k" v) ++ "[t]" ::
              (runBatchLines ⟨parseHeaderName "s" "[t]", true,
                  ⟨"s", "k", "1", true⟩ :: ["2", "3"].map (fun v => ⟨"s", "k", v, true⟩)⟩
                ["k = c"]).1)) ∧
      read_config_value
          (write_config_batch (["[s]", "w = 0"] ++ "k = a" :: ["", "k = b"] ++ "[t]" :: ["k = c"])
            (("s", "k", "1") :: ["2", "3"].map (fun v => ("s", "k", v)))) "s" "k" =
        some "1" :=
  write_config_batch_first_entry_wins "s" "k" "1" ["2", "3"] ["[s]", "w = 0"] ["", "k = b"]
    ["k = c"] "k = a" "[t]" (by decide) (by decide) (by decide) (by decide) (by decide)
    (by decide) (by decide) (by decide) (by decide) (by decide) (by decide)

theorem batch_read_scan (S K V : String) (hK : WFKey K) (hV : WFValue V)
    (hKc : CleanStr K) (hVc : CleanStr V) :
    ∀ ls : List String, CleanDoc ls → ∀ (cur : String) (inSec : Bool) (tail : List String),
      readLoop S K cur (decide (cur = S) && inSec)
          ((runBatchLines ⟨cur, inSec, [⟨S, K, V, false⟩]⟩ ls).1 ++ tail) =
        (if (runBatchLines ⟨cur, inSec, [⟨S, K, V, false⟩]⟩ ls).2.entries
            = [⟨S, K, V, true⟩] then some V
         else
           readLoop S K (runBatchLines ⟨cur, inSec, [⟨S, K, V, false⟩]⟩ ls).2.cur
             (decide ((runBatchLines ⟨cur, inSec, [⟨S, K, V, false⟩]⟩ ls).2.cur = S) &&
               (runBatchLines ⟨cur, inSec, [⟨S, K, V, false⟩]⟩ ls).2.inSection)
             tail) := by
  have hcH : isHeaderLine (canonLine K V) = false := isHeaderLine_canon V hK.2.2
  have hcE : hasEqSign (canonLine K V) = true := hasEqSign_canon K V
  have hcK : lineKey (canonLine K V) = K := lineKey_canon V hK.1 hK.2.1
  have hcV : lineValue (canonLine K V) = V := lineValue_canon hV hK.2.1
  have hcS : stripCRLF (canonLine K V) = canonLine K V :=
    stripCRLF_self (cleanStr_canon hKc hVc)
  intro ls
  induction ls with
  | nil =>
    intro _ cur inSec tail
    rw [runBatchLines_nil]
    simp
  | cons l ls ih =>
    intro hclean cur inSec tail
    have hcl : CleanStr l := hclean l (by simp)
    have hcls : CleanDoc ls := fun d hd => hclean d (by simp [hd])
    have hstrip : stripCRLF l = l := stripCRLF_self hcl
    rw [runBatchLines_cons]
    by_cases h1 : isHeaderLine l = true
    · by_cases h2 : inSec = true ∧ S = cur
      · have hc : inSec = true ∧ (false : Bool) = false ∧ S = cur := ⟨h2.1, rfl, h2.2⟩
        have hstep : batchLine ⟨cur, inSec, [⟨S, K, V, false⟩]⟩ l =
            ([canonLine K V] ++ [l], ⟨parseHeaderName cur l, true, [⟨S, K, V, true⟩]⟩) := by
          rw [batchLine_singleton_cases, if_pos h1, if_pos hc, if_pos hc]
        rw [hstep]
        dsimp only
        obtain ⟨c', i', u', hsh, hmono⟩ :=
          runBatch_singleton_shape S K V ls (parseHeaderName cur l) true true
        rw [hsh, hmono rfl, if_pos rfl]
        have hstate : (decide (cur = S) && inSec) = true := by simp [h2.1, h2.2.symm]
        rw [hstate]
        simp only [List.singleton_append, List.cons_append, List.append_assoc]
        rw [readLoop_cons, hcS, if_neg (by simp [hcH]), if_pos (by simp [hcE]),
          if_pos hcK, hcV]
      · have hc : ¬(inSec = true ∧ (false : Bool) = false ∧ S = cur) :=
          fun hx => h2 ⟨hx.1, hx.2.2⟩
        have hstep : batchLine ⟨cur, inSec, [⟨S, K, V, false⟩]⟩ l =
            ([] ++ [l], ⟨parseHeaderName cur l, true, [⟨S, K, V, false⟩]⟩) := by
          rw [batchLine_singleton_cases, if_pos h1, if_neg hc, if_neg hc]
        rw [hstep]
        dsimp only
        simp only [List.nil_append, List.cons_append, List.append_assoc]
        rw [readLoop_cons, hstrip, if_pos h1]
        have hrec := ih hcls (parseHeaderName cur l) true tail
        simpa only [Bool.and_true] using hrec
    · by_cases h3 : inSec = true ∧ hasEqSign l = true ∧ S = cur ∧ K = lineKey l
      · have hstep : batchLine ⟨cur, inSec, [⟨S, K, V, false⟩]⟩ l =
            ([canonLine K V], ⟨cur, inSec, [⟨S, K, V, true⟩]⟩) := by
          rw [batchLine_singleton_cases, if_neg h1, if_pos h3]
        rw [hstep]
        dsimp only
        obtain ⟨c', i', u', hsh, hmono⟩ :=
          runBatch_singleton_shape S K V ls cur inSec true
        rw [hsh, hmono rfl, if_pos rfl]
        have hstate : (decide (cur = S) && inSec) = true := by
          simp [h3.1, h3.2.2.1.symm]
        rw [hstate]
        simp only [List.singleton_append, List.cons_append, List.append_assoc]
        rw [readLoop_cons, hcS, if_neg (by simp [hcH]), if_pos (by simp [hcE]),
          if_pos hcK, hcV]
      · have hstep : batchLine ⟨cur, inSec, [⟨S, K, V, false⟩]⟩ l =
            ([l], ⟨cur, inSec, [⟨S, K, V, false⟩]⟩) := by
          rw [batchLine_singleton_cases, if_neg h1, if_neg h3]
        rw [hstep]
        dsimp only
        simp only [List.singleton_append, List.cons_append, List.append_assoc]
        rw [readLoop_cons, hstrip, if_neg h1]
        by_cases hEqq : ((decide (cur = S) && inSec) && hasEqSign l) = true
        · rw [if_pos hEqq]
          by_cases hkeyq : lineKey l = K
          · exfalso
            obtain ⟨hsi, heq⟩ := Bool.and_eq_true_iff.mp hEqq
            obtain ⟨hdec, hin⟩ := Bool.and_eq_true_iff.mp hsi
            exact h3 ⟨hin, heq, (of_decide_eq_true hdec).symm, hkeyq.symm⟩
          · rw [if_neg hkeyq]
            exact ih hcls cur inSec tail
        · rw [if_neg hEqq]
          exact ih hcls cur inSec tail

/-- C2 (amended): after a successful single-entry batch update with a
    well-formed section and key and an already-trimmed value, on a document
    whose lines are free of CR/LF, reading (S, K) from the output returns
    exactly the written value (the counterexample shows the claim fails for
    values the read-side trimming alters). -/
theorem write_config_batch_roundtrip :
    ∀ (doc : List String) (S K V : String),
      WFSection S → WFKey K → WFValue V →
      CleanStr S → CleanStr K → CleanStr V → CleanDoc doc →
      read_config_value (write_config_batch doc [(S, K, V)]) S K = some V := by
  intro doc S K V hS hK hV hSc hKc hVc hdoc
  have hcH : isHeaderLine (canonLine K V) = false := isHeaderLine_canon V hK.2.2
  have hcE : hasEqSign (canonLine K V) = true := hasEqSign_canon K V
  have hcK : lineKey (canonLine K V) = K := lineKey_canon V hK.1 hK.2.1
  have hcV : lineValue (canonLine K V) = V := lineValue_canon hV hK.2.1
  have hcS : stripCRLF (canonLine K V) = canonLine K V :=
    stripCRLF_self (cleanStr_canon hKc hVc)
  have hcanonread : ∀ (cc : String) (rest : List String),
      readLoop S K cc true (canonLine K V :: rest) = some V := by
    intro cc rest
    rw [readLoop_cons, hcS, if_neg (by simp [hcH]), if_pos (by simp [hcE]),
      if_pos hcK, hcV]
  have htail : ∀ (cc : String) (b : Bool),
      readLoop S K cc b ["", "[" ++ S ++ "]", canonLine K V] = some V := by
    intro cc b
    rw [readLoop_cons]
    rw [show stripCRLF "" = "" from rfl]
    rw [if_neg (by decide),
      if_neg (by simp [(by decide : hasEqSign "" = false)])]
    rw [readLoop_cons, stripCRLF_self (cleanStr_bracket hSc),
      if_pos (isHeaderLine_bracket S), parseHeaderName_bracket cc hS]
    exact (by simp : decide (S = S) = true) ▸ hcanonread S []
  unfold write_config_batch read_config_value
  rw [show initEntries [(S, K, V)] = [⟨S, K, V, false⟩] from rfl]
  rw [List.append_assoc]
  have hscan := batch_read_scan S K V hK hV hKc hVc doc hdoc "" false
    ((eofFlush (runBatchLines ⟨"", false, [⟨S, K, V, false⟩]⟩ doc).2).1 ++
      missingSections (eofFlush (runBatchLines ⟨"", false, [⟨S, K, V, false⟩]⟩ doc).2).2)
  rw [show (decide (("" : String) = S) && false) = false from by simp] at hscan
  rw [hscan]
  obtain ⟨c, i, v, hstF, -⟩ := runBatch_singleton_shape S K V doc "" false false
  cases v with
  | true => rw [hstF, if_pos rfl]
  | false =>
    rw [hstF, if_neg (by simp)]
    dsimp only
    by_cases hB1 : i = true ∧ S = c
    · obtain ⟨hi, hsc⟩ := hB1
      subst hi
      have hq : eofFlush ⟨c, true, [⟨S, K, V, false⟩]⟩ =
          ([canonLine K V], [⟨S, K, V, true⟩]) := by
        simp [eofFlush, appendFor, hsc]
      rw [hq, missingSections_single_done]
      dsimp only
      have hstate : (decide (c = S) && true) = true := by simp [hsc.symm]
      rw [hstate]
      simpa using hcanonread c []
    · have hq : eofFlush ⟨c, i, [⟨S, K, V, false⟩]⟩ = ([], [⟨S, K, V, false⟩]) := by
        unfold eofFlush
        cases hi : i with
        | false => simp
        | true =>
          have hsc : ¬S = c := fun h => hB1 ⟨hi, h⟩
          simp [appendFor, hsc]
      rw [hq, missingSections_single_pending]
      dsimp only
      simpa using htail c (decide (c = S) && i)

/-- C2 witness: the amended round trip applied at a concrete document, section,
    key and value, all hypotheses discharged by computation. -/
theorem write_config_batch_roundtrip_witness :
    read_config_value (write_config_batch ["[a]", "x = 1"] [("a", "x", "2")]) "a" "x" =
      some "2" :=
  write_config_batch_roundtrip ["[a]", "x = 1"] "a" "x" "2"
    (by decide) (by decide) (by decide) (by decide) (by decide) (by decide) (by decide)

-- ==========================================================================
-- C8 (amended): no duplicate key lines are created
-- ==========================================================================

theorem countKeyLines_nil (S K cur : String) (inSec : Bool) :
    countKeyLines S K cur inSec [] = 0 := rfl

theorem countKeyLines_cons (S K cur : String) (inSec : Bool) (l : String) (ls : List String) :
    countKeyLines S K cur inSec (l :: ls) =
      (if isHeaderLine l then countKeyLines S K (parseHeaderName cur l) true ls
       else if inSec ∧ cur = S ∧ hasEqSign l ∧ lineKey l = K then
         1 + countKeyLines S K cur inSec ls
       else countKeyLines S K cur inSec ls) := rfl

theorem countHeadersFor_nil (S cur : String) : countHeadersFor S cur [] = 0 := rfl

theorem countHeadersFor_cons (S cur l : String) (ls : List String) :
    countHeadersFor S cur (l :: ls) =
      (if isHeaderLine l then
        (if parseHeaderName cur l = S then 1 else 0) +
          countHeadersFor S (parseHeaderName cur l) ls
      else countHeadersFor S cur ls) := rfl

theorem countKey_zero_of_noHeaders (S K : String) :
    ∀ (ls : List String) (cur : String) (inSec : Bool),
      cur ≠ S → countHeadersFor S cur ls = 0 → countKeyLines S K cur inSec ls = 0 := by
  intro ls
  induction ls with
  | nil => intro cur inSec _ _; rfl
  | cons l ls ih =>
    intro cur inSec hne hh
    by_cases h1 : isHeaderLine l = true
    · rw [countHeadersFor_cons, if_pos h1] at hh
      have hp : parseHeaderName cur l ≠ S := by
        intro he
        rw [if_pos he] at hh
        omega
      rw [if_neg hp] at hh
      rw [countKeyLines_cons, if_pos h1]
      exact ih (parseHeaderName cur l) true hp (by omega)
    · rw [countHeadersFor_cons, if_neg h1] at hh
      rw [countKeyLines_cons, if_neg h1,
        if_neg (fun hx => hne hx.2.1)]
      exact ih cur inSec hne hh

theorem batch_count_scan (S K V : String) (hK : WFKey K) :
    ∀ (ls : List String) (cur : String) (inSec : Bool),
      (countHeadersFor S cur ls = 0 → countKeyLines S K cur inSec ls = 0 →
        (runBatchLines ⟨cur, inSec, [⟨S, K, V, true⟩]⟩ ls).1 = ls ∧
        (runBatchLines ⟨cur, inSec, [⟨S, K, V, true⟩]⟩ ls).2.entries =
          [⟨S, K, V, true⟩]) ∧
      (cur = S → inSec = true → countHeadersFor S cur ls = 0 →
        countKeyLines S K cur inSec ls = 1 →
        countKeyLines S K cur inSec
            (runBatchLines ⟨cur, inSec, [⟨S, K, V, false⟩]⟩ ls).1 = 1 ∧
        (runBatchLines ⟨cur, inSec, [⟨S, K, V, false⟩]⟩ ls).2.entries =
          [⟨S, K, V, true⟩]) ∧
      (cur ≠ S → countHeadersFor S cur ls = 1 →
        countKeyLines S K cur inSec ls = 1 →
        countKeyLines S K cur inSec
            (runBatchLines ⟨cur, inSec, [⟨S, K, V, false⟩]⟩ ls).1 = 1 ∧
        (runBatchLines ⟨cur, inSec, [⟨S, K, V, false⟩]⟩ ls).2.entries =
          [⟨S, K, V, true⟩]) := by
  have hcH : isHeaderLine (canonLine K V) = false := isHeaderLine_canon V hK.2.2
  have hcE : hasEqSign (canonLine K V) = true := hasEqSign_canon K V
  have hcK : lineKey (canonLine K V) = K := lineKey_canon V hK.1 hK.2.1
  intro ls
  induction ls with
  | nil =>
    intro cur inSec
    refine ⟨fun _ _ => ⟨rfl, rfl⟩, fun _ _ _ hk => ?_, fun _ hh _ => ?_⟩
    · rw [countKeyLines_nil] at hk; omega
    · rw [countHeadersFor_nil] at hh; omega
  | cons l ls ih =>
    intro cur inSec
    refine ⟨?_, ?_, ?_⟩
    · -- Done phase
      intro hh hk
      by_cases h1 : isHeaderLine l = true
      · have hfalse : ¬(inSec = true ∧ (true : Bool) = false ∧ S = cur) := by simp
        have hstep : batchLine ⟨cur, inSec, [⟨S, K, V, true⟩]⟩ l =
            ([] ++ [l], ⟨parseHeaderName cur l, true, [⟨S, K, V, true⟩]⟩) := by
          rw [batchLine_singleton_cases, if_pos h1, if_neg hfalse, if_neg hfalse]
        rw [countHeadersFor_cons, if_pos h1] at hh
        have hp : parseHeaderName cur l ≠ S := by
          intro he; rw [if_pos he] at hh; omega
        rw [if_neg hp] at hh
        rw [countKeyLines_cons, if_pos h1] at hk
        obtain ⟨ho, he⟩ := (ih (parseHeaderName cur l) true).1 (by omega) hk
        refine ⟨?_, ?_⟩
        · rw [runBatchLines_cons, hstep]
          dsimp only
          rw [ho]
          simp
        · rw [runBatchLines_cons, hstep]
          dsimp only
          exact he
      · rw [countHeadersFor_cons, if_neg h1] at hh
        have hc2 : ¬(inSec = true ∧ cur = S ∧ hasEqSign l = true ∧ lineKey l = K) := by
          intro hx
          rw [countKeyLines_cons, if_neg h1, if_pos hx] at hk
          omega
        rw [countKeyLines_cons, if_neg h1, if_neg hc2] at hk
        have hmatch : ¬(inSec = true ∧ hasEqSign l = true ∧ S = cur ∧ K = lineKey l) :=
          fun hx => hc2 ⟨hx.1, hx.2.2.1.symm, hx.2.1, hx.2.2.2.symm⟩
        have hstep : batchLine ⟨cur, inSec, [⟨S, K, V, true⟩]⟩ l =
            ([l], ⟨cur, inSec, [⟨S, K, V, true⟩]⟩) := by
          rw [batchLine_singleton_cases, if_neg h1, if_neg hmatch]
        obtain ⟨ho, he⟩ := (ih cur inSec).1 hh hk
        refine ⟨?_, ?_⟩
        · rw [runBatchLines_cons, hstep]
          dsimp only
          rw [ho]
          simp
        · rw [runBatchLines_cons, hstep]
          dsimp only
          exact he
    · -- In phase
      intro hcur hin hh hk
      by_cases h1 : isHeaderLine l = true
      · rw [countHeadersFor_cons, if_pos h1] at hh
        have hp : parseHeaderName cur l ≠ S := by
          intro he; rw [if_pos he] at hh; omega
        rw [if_neg hp] at hh
        rw [countKeyLines_cons, if_pos h1] at hk
        have := countKey_zero_of_noHeaders S K ls (parseHeaderName cur l) true hp (by omega)
        omega
      · by_cases hc2 : inSec = true ∧ cur = S ∧ hasEqSign l = true ∧ lineKey l = K
        · rw [countKeyLines_cons, if_neg h1, if_pos hc2] at hk
          rw [countHeadersFor_cons, if_neg h1] at hh
          have hstep : batchLine ⟨cur, inSec, [⟨S, K, V, false⟩]⟩ l =
              ([canonLine K V], ⟨cur, inSec, [⟨S, K, V, true⟩]⟩) := by
            rw [batchLine_singleton_cases, if_neg h1,
              if_pos ⟨hc2.1, hc2.2.2.1, hc2.2.1.symm, hc2.2.2.2.symm⟩]
          obtain ⟨ho, he⟩ := (ih cur inSec).1 hh (by omega)
          refine ⟨?_, ?_⟩
          · rw [runBatchLines_cons, hstep]
            dsimp only
            rw [ho]
            simp only [List.singleton_append]
            rw [countKeyLines_cons, if_neg (by simp [hcH]),
              if_pos ⟨hc2.1, hc2.2.1, hcE, hcK⟩]
            omega
          · rw [runBatchLines_cons, hstep]
            dsimp only
            exact he
        · rw [countKeyLines_cons, if_neg h1, if_neg hc2] at hk
          rw [countHeadersFor_cons, if_neg h1] at hh
          have hmatch : ¬(inSec = true ∧ hasEqSign l = true ∧ S = cur ∧ K = lineKey l) :=
            fun hx => hc2 ⟨hx.1, hcur, hx.2.1, hx.2.2.2.symm⟩
          have hstep : batchLine ⟨cur, inSec, [⟨S, K, V, false⟩]⟩ l =
              ([l], ⟨cur, inSec, [⟨S, K, V, false⟩]⟩) := by
            rw [batchLine_singleton_cases, if_neg h1, if_neg hmatch]
          obtain ⟨ho, he⟩ := (ih cur inSec).2.1 hcur hin hh hk
          refine ⟨?_, ?_⟩
          · rw [runBatchLines_cons, hstep]
            dsimp only
            simp only [List.singleton_append]
            rw [countKeyLines_cons, if_neg h1, if_neg hc2]
            exact ho
          · rw [runBatchLines_cons, hstep]
            dsimp only
            exact he
    · -- Pre phase
      intro hne hh hk
      by_cases h1 : isHeaderLine l = true
      · rw [countHeadersFor_cons, if_pos h1] at hh
        rw [countKeyLines_cons, if_pos h1] at hk
        have hnoapp : ¬(inSec = true ∧ (false : Bool) = false ∧ S = cur) :=
          fun hx => hne hx.2.2.symm
        have hstep : batchLine ⟨cur, inSec, [⟨S, K, V, false⟩]⟩ l =
            ([] ++ [l], ⟨parseHeaderName cur l, true, [⟨S, K, V, false⟩]⟩) := by
          rw [batchLine_singleton_cases, if_pos h1, if_neg hnoapp, if_neg hnoapp]
        by_cases hp : parseHeaderName cur l = S
        · rw [if_pos hp] at hh
          obtain ⟨ho, he⟩ := (ih (parseHeaderName cur l) true).2.1 hp rfl (by omega) hk
          refine ⟨?_, ?_⟩
          · rw [runBatchLines_cons, hstep]
            dsimp only
            simp only [List.nil_append, List.singleton_append]
            rw [countKeyLines_cons, if_pos h1]
            exact ho
          · rw [runBatchLines_cons, hstep]
            dsimp only
            exact he
        · rw [if_neg hp] at hh
          obtain ⟨ho, he⟩ := (ih (parseHeaderName cur l) true).2.2 hp (by omega) hk
          refine ⟨?_, ?_⟩
          · rw [runBatchLines_cons, hstep]
            dsimp only
            simp only [List.nil_append, List.singleton_append]
            rw [countKeyLines_cons, if_pos h1]
            exact ho
          · rw [runBatchLines_cons, hstep]
            dsimp only
            exact he
      · rw [countHeadersFor_cons, if_neg h1] at hh
        have hc2 : ¬(inSec = true ∧ cur = S ∧ hasEqSign l = true ∧ lineKey l = K) :=
          fun hx => hne hx.2.1
        rw [countKeyLines_cons, if_neg h1, if_neg hc2] at hk
        have hmatch : ¬(inSec = true ∧ hasEqSign l = true ∧ S = cur ∧ K = lineKey l) :=
          fun hx => hne hx.2.2.1.symm
        have hstep : batchLine ⟨cur, inSec, [⟨S, K, V, false⟩]⟩ l =
            ([l], ⟨cur, inSec, [⟨S, K, V, false⟩]⟩) := by
          rw [batchLine_singleton_cases, if_neg h1, if_neg hmatch]
        obtain ⟨ho, he⟩ := (ih cur inSec).2.2 hne hh hk
        refine ⟨?_, ?_⟩
        · rw [runBatchLines_cons, hstep]
          dsimp only
          simp only [List.singleton_append]
          rw [countKeyLines_cons, if_neg h1, if_neg hc2]
          exact ho
        · rw [runBatchLines_cons, hstep]
          dsimp only
          exact he

/-- C8 (amended): when section S occurs exactly once as a header and contains
    exactly one key line for K, updating (S, K) leaves exactly one line whose
    key equals K within section S — no duplicate is created (the counterexample
    shows the claim as stated fails when the input already contains duplicates,
    and duplicated S headers can likewise yield two lines across the two
    regions). -/
theorem write_config_batch_no_duplication :
    ∀ (doc : List String) (S K V : String),
      S ≠ "" → WFKey K →
      sectionHeaderCount doc S = 1 →
      keyLinesInSection doc S K = 1 →
      keyLinesInSection (write_config_batch doc [(S, K, V)]) S K = 1 := by
  intro doc S K V hS0 hK hh hk
  have hne : ("" : String) ≠ S := fun h => hS0 h.symm
  obtain ⟨ho, he⟩ := (batch_count_scan S K V hK doc "" false).2.2 hne hh hk
  unfold write_config_batch keyLinesInSection
  rw [show initEntries [(S, K, V)] = [⟨S, K, V, false⟩] from rfl]
  obtain ⟨c, i, u', hsh, -⟩ := runBatch_singleton_shape S K V doc "" false false
  have hu : u' = true := by
    rw [hsh] at he
    simpa using he
  rw [hsh, hu, eofFlush_updated, missingSections_single_done]
  simp only [List.append_nil]
  exact ho

/-- C8 witness: the amended claim at a concrete document with a unique header
    and a unique key line, hypotheses discharged by computation. -/
theorem write_config_batch_no_duplication_witness :
    keyLinesInSection (write_config_batch ["[a]", "x = 1", "y = 2"] [("a", "x", "9")])
      "a" "x" = 1 :=
  write_config_batch_no_duplication ["[a]", "x = 1", "y = 2"] "a" "x" "9"
    (by decide) (by decide) (by decide) (by decide)
